import Mathlib

/-!
Shallow embedding of the concurrent hash-set repository: the sequential
variant (`hash_set_sequential.h`), the striped variant (`hash_set_striped.h`),
the refinable variant (`hash_set_refinable.h`) and the command-line harness
(`main` in the test driver), together with proofs of the specified properties.

The element type is an arbitrary type `α` with decidable equality; the hash
function `std::hash<T>` is an externally supplied capability and is modelled
as an arbitrary function `hash : α → Nat`.  A table is a `List (List α)`
(outer list = `std::vector` of buckets, inner lists = chained buckets);
`size_t` counters are `Nat`.  The single-threaded fragment of each variant is
embedded: lock acquisition and release are no-ops for a single thread, the
refinable variant's optimistic snapshot validation always succeeds on its
first attempt, and its try-lock on the resize mutex always succeeds.
-/

set_option autoImplicit false
set_option linter.unusedSectionVars false
namespace ConcurrentHashSet

variable {α : Type} [DecidableEq α]

/-- Bucket access `table_[i]`, with `[]` for an out-of-range index (never
reached at positive capacity, where the index is a hash modulo the length). -/
def bucketAt (t : List (List α)) (i : Nat) : List α := t.getD i []

/-- One iteration of the rehash loops of `Resize` / `MaybeResize`:
`new_table[new_index].push_back(elem)` where `new_index` is the hash of the
element modulo the new capacity (the length of the table being filled). -/
def rehashStep (hash : α → Nat) (t : List (List α)) (e : α) : List (List α) :=
  t.set (hash e % t.length) (bucketAt t (hash e % t.length) ++ [e])

/-- The rehash loop shared by every resize: distribute `elems` (the old
table's contents in bucket order) over `cap` fresh empty buckets. -/
def rehash (hash : α → Nat) (elems : List α) (cap : Nat) : List (List α) :=
  elems.foldl (rehashStep hash) (List.replicate cap [])

/-- The data-model invariant on a chained table, shared by all variants:
positive capacity, duplicate-free buckets, and every stored element placed
in the bucket indexed by its hash modulo the current capacity. -/
structure TableInv (hash : α → Nat) (t : List (List α)) : Prop where
  cap_pos : 0 < t.length
  bucket_nodup : ∀ i, (bucketAt t i).Nodup
  placed : ∀ i, ∀ e ∈ bucketAt t i, hash e % t.length = i

/-! ## Sequential variant, from `hash_set_sequential.h` -/

/-- State of `HashSetSequential<T>`: the bucket table `table_` and the
element count `size_`. -/
structure HashSetSequential (α : Type) where
  table_ : List (List α)
  size_ : Nat

namespace HashSetSequential

/-- `kLoadFactorThreshold = 4`, a `size_t`. -/
def kLoadFactorThreshold : Nat := 4

/-- The constructor `table_(initial_capacity), size_(0)`; the asserted
precondition `initial_capacity > 0` is carried as a hypothesis by the
theorems. -/
def init (initial_capacity : Nat) : HashSetSequential α :=
  ⟨List.replicate initial_capacity [], 0⟩

/-- `BucketIndex`: the hash of the element modulo the current capacity. -/
def BucketIndex (hash : α → Nat) (s : HashSetSequential α) (e : α) : Nat :=
  hash e % s.table_.length

/-- `Resize`: double the capacity and rehash every stored element into a
fresh table; `size_` is untouched. -/
def Resize (hash : α → Nat) (s : HashSetSequential α) : HashSetSequential α :=
  ⟨rehash hash s.table_.flatten (s.table_.length * 2), s.size_⟩

/-- `Add`: scan the target bucket; if the element is already there return
`false`, otherwise append it, bump `size_`, and resize when
`size_ > kLoadFactorThreshold * table_.size()`. -/
def Add (hash : α → Nat) (s : HashSetSequential α) (e : α) :
    Bool × HashSetSequential α :=
  let index := BucketIndex hash s e
  let bucket := bucketAt s.table_ index
  if e ∈ bucket then (false, s)
  else
    let s1 : HashSetSequential α := ⟨s.table_.set index (bucket ++ [e]), s.size_ + 1⟩
    if s1.size_ > kLoadFactorThreshold * s1.table_.length then (true, Resize hash s1)
    else (true, s1)

/-- `Remove`: erase the first occurrence found in the target bucket and
decrement `size_`; return whether a removal happened. -/
def Remove (hash : α → Nat) (s : HashSetSequential α) (e : α) :
    Bool × HashSetSequential α :=
  let index := BucketIndex hash s e
  let bucket := bucketAt s.table_ index
  if e ∈ bucket then (true, ⟨s.table_.set index (bucket.erase e), s.size_ - 1⟩)
  else (false, s)

/-- `Contains`: scan the target bucket. -/
def Contains (hash : α → Nat) (s : HashSetSequential α) (e : α) : Bool :=
  decide (e ∈ bucketAt s.table_ (BucketIndex hash s e))

/-- `Size`: the stored count. -/
def Size (s : HashSetSequential α) : Nat := s.size_

end HashSetSequential

/-! ## Striped variant, from `hash_set_striped.h` -/

/-- State of `HashSetStriped<T>`: the bucket table `table_`, the number of
mutexes in the fixed lock array `locks_` (only the count of the
`std::vector<std::mutex>` is observable in the embedding), and the atomic
counter `size_`. -/
structure HashSetStriped (α : Type) where
  table_ : List (List α)
  locks_ : Nat
  size_ : Nat

namespace HashSetStriped

/-- `kLoadFactorThreshold = 4.0`, a `double`; modelled as the rational 4. -/
def kLoadFactorThreshold : ℚ := 4

/-- `LoadFactor()`: `size_ / table_.size()` computed in `double`; modelled
in exact rational arithmetic. -/
def LoadFactor (s : HashSetStriped α) : ℚ :=
  (s.size_ : ℚ) / (s.table_.length : ℚ)

/-- The comparison `LoadFactor() > kLoadFactorThreshold` in the equivalent
integer form `size_ > 4 * table_.size()` (see `loadFactorExceeded_iff`),
which the kernel can evaluate. -/
def loadFactorExceeded (s : HashSetStriped α) : Bool :=
  decide (s.size_ > 4 * s.table_.length)

/-- The constructor `table_(initial_capacity), locks_(initial_capacity),
size_(0)`: one lock per initial bucket. -/
def init (initial_capacity : Nat) : HashSetStriped α :=
  ⟨List.replicate initial_capacity [], initial_capacity, 0⟩

/-- The shard selection `h % locks_.size()` performed by every operation:
it depends only on the hash and the fixed lock count, never on the current
table length. -/
def shardIndex (hash : α → Nat) (s : HashSetStriped α) (e : α) : Nat :=
  hash e % s.locks_

/-- `Resize`: under the resize mutex and all shards (no-ops single-threaded),
re-check the load factor — another thread may have already grown the table —
and if still exceeded, double the capacity and rehash; `locks_` is not
resized. -/
def Resize (hash : α → Nat) (s : HashSetStriped α) : HashSetStriped α :=
  if loadFactorExceeded s then
    ⟨rehash hash s.table_.flatten (s.table_.length * 2), s.locks_, s.size_⟩
  else s

/-- `Add`: acquire the shard `h % locks_.size()` (a no-op single-threaded),
scan the bucket `h % table_.size()`, insert if absent, then resize when the
load factor is exceeded. -/
def Add (hash : α → Nat) (s : HashSetStriped α) (e : α) :
    Bool × HashSetStriped α :=
  let h := hash e
  let index := h % s.table_.length
  let bucket := bucketAt s.table_ index
  if e ∈ bucket then (false, s)
  else
    let s1 : HashSetStriped α :=
      ⟨s.table_.set index (bucket ++ [e]), s.locks_, s.size_ + 1⟩
    if loadFactorExceeded s1 then (true, Resize hash s1)
    else (true, s1)

/-- `Remove`: under the shard, erase the first occurrence in the bucket
`h % table_.size()` and decrement the counter. -/
def Remove (hash : α → Nat) (s : HashSetStriped α) (e : α) :
    Bool × HashSetStriped α :=
  let h := hash e
  let index := h % s.table_.length
  let bucket := bucketAt s.table_ index
  if e ∈ bucket then
    (true, ⟨s.table_.set index (bucket.erase e), s.locks_, s.size_ - 1⟩)
  else (false, s)

/-- `Contains`: under the shard, scan the bucket `h % table_.size()`. -/
def Contains (hash : α → Nat) (s : HashSetStriped α) (e : α) : Bool :=
  decide (e ∈ bucketAt s.table_ (hash e % s.table_.length))

/-- `Size`: the atomic counter, read without locking. -/
def Size (s : HashSetStriped α) : Nat := s.size_

end HashSetStriped

/-! ## Refinable variant, from `hash_set_refinable.h` -/

/-- `TableState`: the snapshot bundling the bucket array with one mutex per
bucket; only the number of mutexes in the `locks` vector is observable in
the embedding.  The constructor `TableState(capacity)` makes `capacity`
buckets and `capacity` locks. -/
structure TableState (α : Type) where
  buckets : List (List α)
  locks : Nat

/-- State of `HashSetRefinable<T>`: the current snapshot `state_` and the
atomic counter `size_`.  Single-threaded there is only ever one referenced
snapshot, so the atomically swappable `shared_ptr` handle is the snapshot
itself, every optimistic validation succeeds on the first attempt, and the
try-lock on `resize_mutex_` always succeeds. -/
structure HashSetRefinable (α : Type) where
  state_ : TableState α
  size_ : Nat

namespace HashSetRefinable

/-- `kLoadFactorThreshold = 4`, a `size_t`. -/
def kLoadFactorThreshold : Nat := 4

/-- The constructor: `size_(0)` and an initial snapshot
`TableState(initial_capacity)`. -/
def init (initial_capacity : Nat) : HashSetRefinable α :=
  ⟨⟨List.replicate initial_capacity [], initial_capacity⟩, 0⟩

/-- `BucketIndex(elem, state)`: hash modulo the snapshot's bucket count. -/
def BucketIndex (hash : α → Nat) (e : α) (state : TableState α) : Nat :=
  hash e % state.buckets.length

/-- `MaybeResize`, single-threaded: the first load-factor check, the
try-lock (always won), the snapshot re-validation (always current) and the
second load-factor check; then all shards are collected (no-ops), a new
snapshot at 4x capacity with one lock per bucket is built and rehashed, and
published by the atomic store. -/
def MaybeResize (hash : α → Nat) (s : HashSetRefinable α) : HashSetRefinable α :=
  if s.size_ ≤ kLoadFactorThreshold * s.state_.buckets.length then s
  else
    if s.size_ ≤ kLoadFactorThreshold * s.state_.buckets.length then s
    else
      let new_capacity := s.state_.buckets.length * 4
      ⟨⟨rehash hash s.state_.buckets.flatten new_capacity, new_capacity⟩, s.size_⟩

/-- `Add`: validate the snapshot (first attempt always succeeds
single-threaded), scan the bucket, insert if absent, bump the atomic
counter, and attempt a resize when `new_size` exceeds the threshold times
the snapshot's capacity. -/
def Add (hash : α → Nat) (s : HashSetRefinable α) (e : α) :
    Bool × HashSetRefinable α :=
  let index := BucketIndex hash e s.state_
  let bucket := bucketAt s.state_.buckets index
  if e ∈ bucket then (false, s)
  else
    let new_size := s.size_ + 1
    let s1 : HashSetRefinable α :=
      ⟨⟨s.state_.buckets.set index (bucket ++ [e]), s.state_.locks⟩, new_size⟩
    if new_size > kLoadFactorThreshold * s1.state_.buckets.length
    then (true, MaybeResize hash s1)
    else (true, s1)

/-- `Remove`: validate the snapshot, erase the first occurrence in the
bucket, decrement the atomic counter. -/
def Remove (hash : α → Nat) (s : HashSetRefinable α) (e : α) :
    Bool × HashSetRefinable α :=
  let index := BucketIndex hash e s.state_
  let bucket := bucketAt s.state_.buckets index
  if e ∈ bucket then
    (true, ⟨⟨s.state_.buckets.set index (bucket.erase e), s.state_.locks⟩, s.size_ - 1⟩)
  else (false, s)

/-- `Contains`: validate the snapshot and scan the bucket. -/
def Contains (hash : α → Nat) (s : HashSetRefinable α) (e : α) : Bool :=
  decide (e ∈ bucketAt s.state_.buckets (BucketIndex hash e s.state_))

/-- `Size`: the atomic counter. -/
def Size (s : HashSetRefinable α) : Nat := s.size_

end HashSetRefinable

/-! ## Single-threaded operation sequences and the abstract set model -/

/-- One request of a single-threaded operation sequence against the shared
capability contract. -/
inductive Op (α : Type) where
  | add : α → Op α
  | remove : α → Op α
  | contains : α → Op α
  | size : Op α

/-- An observable return value: the `bool` of `Add`, `Remove` or `Contains`,
or the count returned by `Size`. -/
inductive Res where
  | ret : Bool → Res
  | count : Nat → Res
deriving DecidableEq

/-- Dispatch one operation on the sequential variant. -/
def seqStep (hash : α → Nat) (s : HashSetSequential α) :
    Op α → Res × HashSetSequential α
  | Op.add e => ((HashSetSequential.Add hash s e).map Res.ret id)
  | Op.remove e => ((HashSetSequential.Remove hash s e).map Res.ret id)
  | Op.contains e => (Res.ret (HashSetSequential.Contains hash s e), s)
  | Op.size => (Res.count (HashSetSequential.Size s), s)

/-- Run a sequence of operations on the sequential variant, collecting the
returned values. -/
def seqRun (hash : α → Nat) (s : HashSetSequential α) :
    List (Op α) → List Res × HashSetSequential α
  | [] => ([], s)
  | op :: ops =>
    let r := seqStep hash s op
    let rest := seqRun hash r.2 ops
    (r.1 :: rest.1, rest.2)

/-- Dispatch one operation on the striped variant. -/
def stripedStep (hash : α → Nat) (s : HashSetStriped α) :
    Op α → Res × HashSetStriped α
  | Op.add e => ((HashSetStriped.Add hash s e).map Res.ret id)
  | Op.remove e => ((HashSetStriped.Remove hash s e).map Res.ret id)
  | Op.contains e => (Res.ret (HashSetStriped.Contains hash s e), s)
  | Op.size => (Res.count (HashSetStriped.Size s), s)

/-- Run a sequence of operations on the striped variant. -/
def stripedRun (hash : α → Nat) (s : HashSetStriped α) :
    List (Op α) → List Res × HashSetStriped α
  | [] => ([], s)
  | op :: ops =>
    let r := stripedStep hash s op
    let rest := stripedRun hash r.2 ops
    (r.1 :: rest.1, rest.2)

/-- Dispatch one operation on the refinable variant. -/
def refStep (hash : α → Nat) (s : HashSetRefinable α) :
    Op α → Res × HashSetRefinable α
  | Op.add e => ((HashSetRefinable.Add hash s e).map Res.ret id)
  | Op.remove e => ((HashSetRefinable.Remove hash s e).map Res.ret id)
  | Op.contains e => (Res.ret (HashSetRefinable.Contains hash s e), s)
  | Op.size => (Res.count (HashSetRefinable.Size s), s)

/-- Run a sequence of operations on the refinable variant. -/
def refRun (hash : α → Nat) (s : HashSetRefinable α) :
    List (Op α) → List Res × HashSetRefinable α
  | [] => ([], s)
  | op :: ops =>
    let r := refStep hash s op
    let rest := refRun hash r.2 ops
    (r.1 :: rest.1, rest.2)

/-- The abstract mathematical set against which all three variants are
verified: `Add` inserts and reports prior absence, `Remove` deletes and
reports prior presence, `Contains` reports presence, `Size` reports the
cardinality. -/
def absStep (S : Finset α) : Op α → Res × Finset α
  | Op.add e => (Res.ret (decide (e ∉ S)), insert e S)
  | Op.remove e => (Res.ret (decide (e ∈ S)), S.erase e)
  | Op.contains e => (Res.ret (decide (e ∈ S)), S)
  | Op.size => (Res.count S.card, S)

/-- Run a sequence of operations on the abstract set model. -/
def absRun (S : Finset α) : List (Op α) → List Res × Finset α
  | [] => ([], S)
  | op :: ops =>
    let r := absStep S op
    let rest := absRun r.2 ops
    (r.1 :: rest.1, rest.2)

/-! ## Refinement of the sequential variant to the abstract set -/

/-- The mathematical set stored by a sequential state. -/
def seqAbs (s : HashSetSequential α) : Finset α := s.table_.flatten.toFinset

/-- Invariant of a reachable sequential state: the table invariant plus the
counter agreeing with the number of stored entries. -/
structure SeqInv (hash : α → Nat) (s : HashSetSequential α) : Prop where
  tbl : TableInv hash s.table_
  count : s.size_ = s.table_.flatten.length

/-! ## Refinement of the striped variant to the abstract set -/

/-- The mathematical set stored by a striped state. -/
def stripedAbs (s : HashSetStriped α) : Finset α := s.table_.flatten.toFinset

/-- Invariant of a reachable striped state: the table invariant, the counter
agreeing with the entry count, and a positive fixed lock count. -/
structure StripedInv (hash : α → Nat) (s : HashSetStriped α) : Prop where
  tbl : TableInv hash s.table_
  count : s.size_ = s.table_.flatten.length
  locks_pos : 0 < s.locks_

/-! ## Refinement of the refinable variant to the abstract set -/

/-- The mathematical set stored by a refinable state's current snapshot. -/
def refAbs (s : HashSetRefinable α) : Finset α := s.state_.buckets.flatten.toFinset

/-- Invariant of a reachable refinable state: the table invariant on the
snapshot's buckets, the counter agreeing with the entry count, and one lock
shard per bucket in the snapshot. -/
structure RefInv (hash : α → Nat) (s : HashSetRefinable α) : Prop where
  tbl : TableInv hash s.state_.buckets
  count : s.size_ = s.state_.buckets.flatten.length
  locks_eq : s.state_.locks = s.state_.buckets.length

/-! ## Sequences of insertions -/

/-- Fold a list of insertions over the sequential variant, as the harness's
insert loop and the 0..999 scenario of the spec do. -/
def addAll (hash : α → Nat) (s : HashSetSequential α) (l : List α) :
    HashSetSequential α :=
  l.foldl (fun t e => (HashSetSequential.Add hash t e).2) s

/-! ## The command-line harness, from the test driver's `main` -/

/-- The removal loop of the harness: for each `i` (with `rem` iterations
left until `count`) it checks the running size against `count - i` — a
diagnostic print only, the loop is not exited on mismatch — then checks
`Contains(i)`, returning exit code 1 (modelled as `none`) on failure, and
removes `i`.  The boolean records whether every check, including the
diagnostic-only size check, held. -/
def harnessLoop (hash : Int → Nat) (count : Nat) :
    HashSetSequential Int → Nat → Nat → Bool × Option (HashSetSequential Int)
  | s, _, 0 => (true, some s)
  | s, i, rem + 1 =>
    let sizeOk := decide (HashSetSequential.Size s = count - i)
    if HashSetSequential.Contains hash s (i : Int) then
      let rest := harnessLoop hash count
        (HashSetSequential.Remove hash s (i : Int)).2 (i + 1) rem
      (sizeOk && rest.1, rest.2)
    else (false, none)

/-- The harness `main` after parsing its two numeric arguments: insert
`0..count-1`, check the size, run the removal loop, check emptiness.
`none` models the aborted constructor assertion for a zero capacity; the
result is otherwise the process exit code paired with whether every check
(including the diagnostic-only ones) passed. -/
def harnessMain (hash : Int → Nat) (initial_capacity count : Nat) :
    Option (Nat × Bool) :=
  if initial_capacity = 0 then none
  else
    let s1 := addAll hash (HashSetSequential.init initial_capacity)
      ((List.range count).map (fun i : Nat => (i : Int)))
    if HashSetSequential.Size s1 ≠ count then some (1, false)
    else
      match harnessLoop hash count s1 0 count with
      | (_, none) => some (1, false)
      | (ok, some sf) =>
        if HashSetSequential.Size sf ≠ 0 then some (1, false)
        else some (0, ok)

theorem bucketAt_nil (i : Nat) : bucketAt ([] : List (List α)) i = [] := by
  cases i <;> rfl

theorem bucketAt_cons_succ (x : List α) (t : List (List α)) (i : Nat) :
    bucketAt (x :: t) (i + 1) = bucketAt t i := rfl

theorem bucketAt_of_le (t : List (List α)) (i : Nat) (h : t.length ≤ i) :
    bucketAt t i = [] := by
  induction t generalizing i with
  | nil => exact bucketAt_nil i
  | cons x xs ih =>
    cases i with
    | zero => simp at h
    | succ j => exact (bucketAt_cons_succ x xs j).trans (ih j (by simpa using h))

theorem bucketAt_eq_getElem (t : List (List α)) (i : Nat) (h : i < t.length) :
    bucketAt t i = t[i] := by
  induction t generalizing i with
  | nil => simp at h
  | cons x xs ih =>
    cases i with
    | zero => rfl
    | succ j => exact (bucketAt_cons_succ x xs j).trans (ih j (by simpa using h))

theorem bucketAt_set_self (t : List (List α)) (i : Nat) (b : List α)
    (h : i < t.length) : bucketAt (t.set i b) i = b := by
  induction t generalizing i with
  | nil => simp at h
  | cons x xs ih =>
    cases i with
    | zero => rfl
    | succ j => exact ih j (by simpa using h)

theorem bucketAt_set_ne (t : List (List α)) (i j : Nat) (b : List α)
    (h : j ≠ i) : bucketAt (t.set i b) j = bucketAt t j := by
  induction t generalizing i j with
  | nil => simp [List.set]
  | cons x xs ih =>
    cases i with
    | zero => cases j with
      | zero => exact absurd rfl h
      | succ k => rfl
    | succ i' => cases j with
      | zero => rfl
      | succ k => exact ih i' k (fun hk => h (by simp [hk]))

/-- Splitting a table at one bucket: the flattened contents are a prefix,
the bucket, and a suffix, and replacing that bucket replaces exactly the
middle part of the flattened contents. -/
theorem flatten_set_decomp (t : List (List α)) (i : Nat) (hi : i < t.length) :
    ∃ pre post : List α,
      t.flatten = pre ++ bucketAt t i ++ post ∧
      ∀ b : List α, (t.set i b).flatten = pre ++ b ++ post := by
  induction t generalizing i with
  | nil => simp at hi
  | cons x xs ih =>
    cases i with
    | zero =>
      refine ⟨[], xs.flatten, by simp [bucketAt], fun b => by simp⟩
    | succ j =>
      obtain ⟨pre, post, h1, h2⟩ := ih j (by simpa using hi)
      refine ⟨x ++ pre, post, ?_, fun b => ?_⟩
      · rw [List.flatten_cons, bucketAt_cons_succ, h1]; simp
      · rw [List.set_cons_succ, List.flatten_cons, h2 b]; simp

theorem TableInv.mem_flatten_iff {hash : α → Nat} {t : List (List α)}
    (hI : TableInv hash t) (e : α) :
    e ∈ t.flatten ↔ e ∈ bucketAt t (hash e % t.length) := by
  constructor
  · intro hmem
    rcases List.mem_flatten.mp hmem with ⟨b, hb, heb⟩
    rcases List.mem_iff_getElem.mp hb with ⟨j, hj, rfl⟩
    rw [← bucketAt_eq_getElem t j hj] at heb
    rwa [hI.placed j e heb]
  · intro hmem
    have hlt : hash e % t.length < t.length := Nat.mod_lt _ hI.cap_pos
    exact List.mem_flatten.mpr
      ⟨bucketAt t (hash e % t.length), by
        rw [bucketAt_eq_getElem t _ hlt]; exact List.getElem_mem hlt, hmem⟩

theorem TableInv.flatten_nodup {hash : α → Nat} {t : List (List α)}
    (hI : TableInv hash t) : t.flatten.Nodup := by
  refine List.nodup_flatten.mpr ⟨?_, ?_⟩
  · intro b hb
    rcases List.mem_iff_getElem.mp hb with ⟨j, hj, rfl⟩
    rw [← bucketAt_eq_getElem t j hj]
    exact hI.bucket_nodup j
  · refine List.pairwise_iff_getElem.mpr ?_
    intro i j hi hj hij
    intro e hei hej
    rw [← bucketAt_eq_getElem t i hi] at hei
    rw [← bucketAt_eq_getElem t j hj] at hej
    have h1 := hI.placed i e hei
    have h2 := hI.placed j e hej
    omega

/-- Effect of the insertion step `bucket.push_back(elem)` shared by the `Add`
of every variant: the invariant is preserved and the flattened contents gain
exactly the new element. -/
theorem tableInsert_spec {hash : α → Nat} {t : List (List α)} (hI : TableInv hash t)
    (e : α) (hnot : e ∉ bucketAt t (hash e % t.length)) :
    TableInv hash (t.set (hash e % t.length) (bucketAt t (hash e % t.length) ++ [e]))
    ∧ (t.set (hash e % t.length) (bucketAt t (hash e % t.length) ++ [e])).flatten.length
        = t.flatten.length + 1
    ∧ ∀ x, x ∈ (t.set (hash e % t.length) (bucketAt t (hash e % t.length) ++ [e])).flatten
        ↔ x ∈ t.flatten ∨ x = e := by
  set i := hash e % t.length with hidef
  have hlt : i < t.length := Nat.mod_lt _ hI.cap_pos
  obtain ⟨pre, post, h1, h2⟩ := flatten_set_decomp t i hlt
  have hlen : (t.set i (bucketAt t i ++ [e])).length = t.length := List.length_set ..
  refine ⟨⟨by rw [hlen]; exact hI.cap_pos, ?_, ?_⟩, ?_, ?_⟩
  · intro j
    by_cases hj : j = i
    · subst hj
      rw [bucketAt_set_self _ _ _ hlt]
      simp [List.nodup_append, hI.bucket_nodup i]
      intro hmem
      exact hnot hmem
    · rw [bucketAt_set_ne _ _ _ _ hj]
      exact hI.bucket_nodup j
  · intro j x hx
    rw [hlen]
    by_cases hj : j = i
    · subst hj
      rw [bucketAt_set_self _ _ _ hlt] at hx
      rcases List.mem_append.mp hx with hx | hx
      · exact hI.placed _ x hx
      · rw [List.mem_singleton.mp hx, ← hidef]
    · rw [bucketAt_set_ne _ _ _ _ hj] at hx
      exact hI.placed j x hx
  · rw [h2, h1]
    simp
    omega
  · intro x
    rw [h2, h1]
    simp only [List.mem_append, List.mem_singleton]
    tauto

/-- Effect of the removal step `bucket.erase(it)` shared by the `Remove` of
every variant: the invariant is preserved, the flattened contents lose
exactly the removed element, and the entry count drops by one. -/
theorem tableErase_spec {hash : α → Nat} {t : List (List α)} (hI : TableInv hash t)
    (e : α) (hmem : e ∈ bucketAt t (hash e % t.length)) :
    TableInv hash (t.set (hash e % t.length) ((bucketAt t (hash e % t.length)).erase e))
    ∧ (t.set (hash e % t.length) ((bucketAt t (hash e % t.length)).erase e)).flatten.length + 1
        = t.flatten.length
    ∧ ∀ x, x ∈ (t.set (hash e % t.length) ((bucketAt t (hash e % t.length)).erase e)).flatten
        ↔ x ∈ t.flatten ∧ x ≠ e := by
  set i := hash e % t.length with hidef
  have hlt : i < t.length := Nat.mod_lt _ hI.cap_pos
  obtain ⟨pre, post, h1, h2⟩ := flatten_set_decomp t i hlt
  have hlen : (t.set i ((bucketAt t i).erase e)).length = t.length := List.length_set ..
  have hbnd := hI.bucket_nodup i
  have hglobal : (pre ++ bucketAt t i ++ post).Nodup := h1 ▸ hI.flatten_nodup
  have hepre : e ∉ pre := by
    intro hp
    have hnd2 : (pre ++ (bucketAt t i ++ post)).Nodup := by
      rw [List.append_assoc] at hglobal
      exact hglobal
    exact List.disjoint_of_nodup_append hnd2 hp (List.mem_append.mpr (Or.inl hmem))
  have hepost : e ∉ post := by
    intro hp
    exact List.disjoint_of_nodup_append hglobal (List.mem_append.mpr (Or.inr hmem)) hp
  refine ⟨⟨by rw [hlen]; exact hI.cap_pos, ?_, ?_⟩, ?_, ?_⟩
  · intro j
    by_cases hj : j = i
    · subst hj
      rw [bucketAt_set_self _ _ _ hlt]
      exact hbnd.erase e
    · rw [bucketAt_set_ne _ _ _ _ hj]
      exact hI.bucket_nodup j
  · intro j x hx
    rw [hlen]
    by_cases hj : j = i
    · subst hj
      rw [bucketAt_set_self _ _ _ hlt] at hx
      exact hI.placed _ x (List.mem_of_mem_erase hx)
    · rw [bucketAt_set_ne _ _ _ _ hj] at hx
      exact hI.placed j x hx
  · rw [h2, h1]
    simp only [List.length_append]
    have := List.length_erase_of_mem hmem
    have hb1 : 1 ≤ (bucketAt t i).length := List.length_pos_of_mem hmem
    omega
  · intro x
    rw [h2, h1]
    have hxpre : x ∈ pre → x ≠ e := fun hx hxe => hepre (hxe ▸ hx)
    have hxpost : x ∈ post → x ≠ e := fun hx hxe => hepost (hxe ▸ hx)
    simp only [List.mem_append, hbnd.mem_erase_iff]
    tauto

theorem length_foldl_rehashStep (hash : α → Nat) (l : List α) :
    ∀ acc : List (List α), (l.foldl (rehashStep hash) acc).length = acc.length := by
  induction l with
  | nil => intro acc; rfl
  | cons x xs ih =>
    intro acc
    rw [List.foldl_cons, ih]
    exact List.length_set ..

theorem length_rehash (hash : α → Nat) (elems : List α) (cap : Nat) :
    (rehash hash elems cap).length = cap := by
  rw [rehash, length_foldl_rehashStep, List.length_replicate]

theorem bucketAt_replicate_nil (n i : Nat) :
    bucketAt (List.replicate n ([] : List α)) i = [] := by
  induction n generalizing i with
  | zero => exact bucketAt_nil i
  | succ m ih =>
    cases i with
    | zero => rfl
    | succ j => exact ih j

theorem bucketAt_foldl_rehashStep (hash : α → Nat) (l : List α) (i : Nat) :
    ∀ acc : List (List α), 0 < acc.length →
    bucketAt (l.foldl (rehashStep hash) acc) i
      = bucketAt acc i ++ l.filter (fun e => hash e % acc.length == i) := by
  induction l with
  | nil => intro acc _; simp
  | cons x xs ih =>
    intro acc hpos
    have hlen : (rehashStep hash acc x).length = acc.length := List.length_set ..
    rw [List.foldl_cons, ih _ (by rw [hlen]; exact hpos), hlen]
    by_cases hx : hash x % acc.length = i
    · rw [rehashStep, hx, bucketAt_set_self _ _ _ (hx ▸ Nat.mod_lt _ hpos)]
      simp [List.filter_cons, hx]
    · rw [rehashStep, bucketAt_set_ne _ _ _ _ (fun h => hx h.symm)]
      simp [List.filter_cons, hx]

theorem bucketAt_rehash (hash : α → Nat) (elems : List α) {cap : Nat}
    (hpos : 0 < cap) (i : Nat) :
    bucketAt (rehash hash elems cap) i
      = elems.filter (fun e => hash e % cap == i) := by
  rw [rehash, bucketAt_foldl_rehashStep hash elems i _ (by simpa using hpos),
      List.length_replicate, bucketAt_replicate_nil]
  simp

/-- The rehash loop rebuilds a table satisfying the data-model invariant. -/
theorem tableInv_rehash (hash : α → Nat) {elems : List α} (hnd : elems.Nodup)
    {cap : Nat} (hpos : 0 < cap) : TableInv hash (rehash hash elems cap) := by
  refine ⟨by rw [length_rehash]; exact hpos, ?_, ?_⟩
  · intro i
    rw [bucketAt_rehash hash elems hpos]
    exact hnd.filter _
  · intro i e he
    rw [bucketAt_rehash hash elems hpos] at he
    have hp := List.of_mem_filter he
    rw [length_rehash]
    simpa using hp

/-- Membership is preserved exactly by the rehash loop. -/
theorem mem_rehash_flatten (hash : α → Nat) {elems : List α} (hnd : elems.Nodup)
    {cap : Nat} (hpos : 0 < cap) (x : α) :
    x ∈ (rehash hash elems cap).flatten ↔ x ∈ elems := by
  rw [(tableInv_rehash hash hnd hpos).mem_flatten_iff, length_rehash,
      bucketAt_rehash hash elems hpos, List.mem_filter]
  simp

theorem flatten_length_rehashStep (hash : α → Nat) (acc : List (List α)) (x : α)
    (hpos : 0 < acc.length) :
    (rehashStep hash acc x).flatten.length = acc.flatten.length + 1 := by
  obtain ⟨pre, post, h1, h2⟩ :=
    flatten_set_decomp acc (hash x % acc.length) (Nat.mod_lt _ hpos)
  rw [rehashStep, h2, h1]
  simp
  omega

theorem flatten_length_foldl_rehashStep (hash : α → Nat) (l : List α) :
    ∀ acc : List (List α), 0 < acc.length →
    (l.foldl (rehashStep hash) acc).flatten.length = acc.flatten.length + l.length := by
  induction l with
  | nil => intro acc _; simp
  | cons x xs ih =>
    intro acc hpos
    have hlen : (rehashStep hash acc x).length = acc.length := List.length_set ..
    rw [List.foldl_cons, ih _ (by rw [hlen]; exact hpos),
        flatten_length_rehashStep hash acc x hpos]
    simp
    omega

theorem flatten_replicate_nil (n : Nat) :
    (List.replicate n ([] : List α)).flatten = [] := by
  induction n with
  | zero => rfl
  | succ m ih => simpa using ih

/-- The rehash loop keeps the entry count: no element disappears or is
duplicated across a growth event. -/
theorem length_rehash_flatten (hash : α → Nat) (elems : List α) {cap : Nat}
    (hpos : 0 < cap) :
    (rehash hash elems cap).flatten.length = elems.length := by
  rw [rehash, flatten_length_foldl_rehashStep hash elems _ (by simpa using hpos),
      flatten_replicate_nil]
  simp

theorem seqSize_eq_card {hash : α → Nat} {s : HashSetSequential α}
    (hI : SeqInv hash s) : s.size_ = (seqAbs s).card := by
  rw [hI.count, seqAbs, List.toFinset_card_of_nodup hI.tbl.flatten_nodup]

theorem seqInv_init (hash : α → Nat) {cap : Nat} (hpos : 0 < cap) :
    SeqInv hash (HashSetSequential.init (α := α) cap) := by
  refine ⟨⟨by simpa [HashSetSequential.init] using hpos, ?_, ?_⟩, ?_⟩
  · intro i
    simp [HashSetSequential.init, bucketAt_replicate_nil]
  · intro i e he
    rw [HashSetSequential.init] at he
    simp [bucketAt_replicate_nil] at he
  · simp [HashSetSequential.init, flatten_replicate_nil]

theorem seqAbs_init (cap : Nat) :
    seqAbs (HashSetSequential.init (α := α) cap) = ∅ := by
  simp [HashSetSequential.init, seqAbs, flatten_replicate_nil]

/-- `Resize` of the sequential variant preserves the invariant, the stored
set, the counter, and doubles the capacity. -/
theorem seqResize_spec {hash : α → Nat} {s : HashSetSequential α}
    (hI : SeqInv hash s) :
    SeqInv hash (HashSetSequential.Resize hash s)
    ∧ seqAbs (HashSetSequential.Resize hash s) = seqAbs s
    ∧ (HashSetSequential.Resize hash s).size_ = s.size_
    ∧ (HashSetSequential.Resize hash s).table_.length = s.table_.length * 2 := by
  have hnd := hI.tbl.flatten_nodup
  have hpos : 0 < s.table_.length * 2 := by have := hI.tbl.cap_pos; omega
  refine ⟨⟨tableInv_rehash hash hnd hpos, ?_⟩, ?_, rfl, ?_⟩
  · simp [HashSetSequential.Resize, length_rehash_flatten hash _ hpos, hI.count]
  · ext x
    simp [HashSetSequential.Resize, seqAbs, mem_rehash_flatten hash hnd hpos]
  · simp [HashSetSequential.Resize, length_rehash]

/-- `Add` of the sequential variant returns true iff the element was absent
and makes the stored set exactly the old set plus the element. -/
theorem seqAdd_spec {hash : α → Nat} {s : HashSetSequential α}
    (hI : SeqInv hash s) (e : α) :
    (HashSetSequential.Add hash s e).1 = decide (e ∉ seqAbs s)
    ∧ SeqInv hash (HashSetSequential.Add hash s e).2
    ∧ seqAbs (HashSetSequential.Add hash s e).2 = insert e (seqAbs s) := by
  by_cases he : e ∈ bucketAt s.table_ (hash e % s.table_.length)
  · have hmem : e ∈ s.table_.flatten := (hI.tbl.mem_flatten_iff e).mpr he
    have habs : e ∈ seqAbs s := List.mem_toFinset.mpr hmem
    have heq : HashSetSequential.Add hash s e = (false, s) := by
      simp [HashSetSequential.Add, HashSetSequential.BucketIndex, he]
    rw [heq]
    exact ⟨by simp [habs], hI, by simp [Finset.insert_eq_self.mpr habs]⟩
  · have hmem : e ∉ s.table_.flatten := fun h => he ((hI.tbl.mem_flatten_iff e).mp h)
    have habs : e ∉ seqAbs s := fun h => hmem (List.mem_toFinset.mp h)
    obtain ⟨hI', hlen, hmemiff⟩ := tableInsert_spec hI.tbl e he
    set t' := s.table_.set (hash e % s.table_.length)
        (bucketAt s.table_ (hash e % s.table_.length) ++ [e]) with ht'
    have hcount' : s.size_ + 1 = t'.flatten.length := by rw [hlen, hI.count]
    have hI1 : SeqInv hash ⟨t', s.size_ + 1⟩ := ⟨hI', hcount'⟩
    have habs' : seqAbs ⟨t', s.size_ + 1⟩ = insert e (seqAbs s) := by
      ext x
      simp only [seqAbs, List.mem_toFinset, Finset.mem_insert, hmemiff x]
      tauto
    by_cases hlf : s.size_ + 1 > HashSetSequential.kLoadFactorThreshold * t'.length
    · have heq : HashSetSequential.Add hash s e =
          (true, HashSetSequential.Resize hash ⟨t', s.size_ + 1⟩) := by
        simp only [HashSetSequential.Add, HashSetSequential.BucketIndex]
        rw [if_neg he, if_pos (by exact hlf)]
      rw [heq]
      obtain ⟨hIr, habsr, _, _⟩ := seqResize_spec hI1
      exact ⟨by simp [habs], hIr, by rw [habsr, habs']⟩
    · have heq : HashSetSequential.Add hash s e = (true, ⟨t', s.size_ + 1⟩) := by
        simp only [HashSetSequential.Add, HashSetSequential.BucketIndex]
        rw [if_neg he, if_neg (by exact hlf)]
      rw [heq]
      exact ⟨by simp [habs], hI1, habs'⟩

/-- `Remove` of the sequential variant returns true iff the element was
present and makes the stored set exactly the old set minus the element; on
a miss the state is unchanged. -/
theorem seqRemove_spec {hash : α → Nat} {s : HashSetSequential α}
    (hI : SeqInv hash s) (e : α) :
    (HashSetSequential.Remove hash s e).1 = decide (e ∈ seqAbs s)
    ∧ SeqInv hash (HashSetSequential.Remove hash s e).2
    ∧ seqAbs (HashSetSequential.Remove hash s e).2 = (seqAbs s).erase e
    ∧ ((HashSetSequential.Remove hash s e).1 = false →
        (HashSetSequential.Remove hash s e).2 = s) := by
  by_cases he : e ∈ bucketAt s.table_ (hash e % s.table_.length)
  · have hmem : e ∈ s.table_.flatten := (hI.tbl.mem_flatten_iff e).mpr he
    have habs : e ∈ seqAbs s := List.mem_toFinset.mpr hmem
    obtain ⟨hI', hlen, hmemiff⟩ := tableErase_spec hI.tbl e he
    set t' := s.table_.set (hash e % s.table_.length)
        ((bucketAt s.table_ (hash e % s.table_.length)).erase e) with ht'
    have heq : HashSetSequential.Remove hash s e = (true, ⟨t', s.size_ - 1⟩) := by
      simp only [HashSetSequential.Remove, HashSetSequential.BucketIndex]
      rw [if_pos he]
    rw [heq]
    refine ⟨by simp [habs], ⟨hI', ?_⟩, ?_, by simp⟩
    · show s.size_ - 1 = t'.flatten.length
      rw [hI.count]
      omega
    ext x
    simp only [seqAbs, List.mem_toFinset, Finset.mem_erase, hmemiff x]
    tauto
  · have hmem : e ∉ s.table_.flatten := fun h => he ((hI.tbl.mem_flatten_iff e).mp h)
    have habs : e ∉ seqAbs s := fun h => hmem (List.mem_toFinset.mp h)
    have heq : HashSetSequential.Remove hash s e = (false, s) := by
      simp [HashSetSequential.Remove, HashSetSequential.BucketIndex, he]
    rw [heq]
    exact ⟨by simp [habs], hI, by simp [Finset.erase_eq_self.mpr habs], fun _ => rfl⟩

/-- `Contains` of the sequential variant decides membership in the stored
set. -/
theorem seqContains_spec {hash : α → Nat} {s : HashSetSequential α}
    (hI : SeqInv hash s) (e : α) :
    HashSetSequential.Contains hash s e = decide (e ∈ seqAbs s) := by
  rw [HashSetSequential.Contains, HashSetSequential.BucketIndex]
  by_cases he : e ∈ bucketAt s.table_ (hash e % s.table_.length)
  · simp [he, seqAbs, List.mem_toFinset, (hI.tbl.mem_flatten_iff e).mpr he]
  · have habs : e ∉ seqAbs s :=
      fun hx => he ((hI.tbl.mem_flatten_iff e).mp (List.mem_toFinset.mp hx))
    simp [he, habs]

/-- One sequential step refines one abstract step. -/
theorem seqStep_spec {hash : α → Nat} {s : HashSetSequential α}
    (hI : SeqInv hash s) (op : Op α) :
    (seqStep hash s op).1 = (absStep (seqAbs s) op).1
    ∧ SeqInv hash (seqStep hash s op).2
    ∧ seqAbs (seqStep hash s op).2 = (absStep (seqAbs s) op).2 := by
  cases op with
  | add e =>
    obtain ⟨h1, h2, h3⟩ := seqAdd_spec hI e
    exact ⟨by simp [seqStep, absStep, h1], by simpa [seqStep] using h2,
      by simpa [seqStep, absStep] using h3⟩
  | remove e =>
    obtain ⟨h1, h2, h3, _⟩ := seqRemove_spec hI e
    exact ⟨by simp [seqStep, absStep, h1], by simpa [seqStep] using h2,
      by simpa [seqStep, absStep] using h3⟩
  | contains e =>
    exact ⟨by simp [seqStep, absStep, seqContains_spec hI e], hI, by simp [seqStep, absStep]⟩
  | size =>
    exact ⟨by simp [seqStep, absStep, HashSetSequential.Size, seqSize_eq_card hI], hI,
      by simp [seqStep, absStep]⟩

/-- A sequential run refines the abstract run: identical observable return
values, and the final stored set is the abstract final set. -/
theorem seqRun_spec {hash : α → Nat} (ops : List (Op α)) :
    ∀ s : HashSetSequential α, SeqInv hash s →
    (seqRun hash s ops).1 = (absRun (seqAbs s) ops).1
    ∧ SeqInv hash (seqRun hash s ops).2
    ∧ seqAbs (seqRun hash s ops).2 = (absRun (seqAbs s) ops).2 := by
  induction ops with
  | nil => exact fun s hI => ⟨rfl, hI, rfl⟩
  | cons op ops ih =>
    intro s hI
    obtain ⟨h1, h2, h3⟩ := seqStep_spec hI op
    obtain ⟨ih1, ih2, ih3⟩ := ih _ h2
    refine ⟨?_, by simpa [seqRun] using ih2, ?_⟩
    · simp only [seqRun, absRun]
      rw [h1, ih1, h3]
    · simp only [seqRun, absRun]
      rw [ih3, h3]

theorem stripedSize_eq_card {hash : α → Nat} {s : HashSetStriped α}
    (hI : StripedInv hash s) : s.size_ = (stripedAbs s).card := by
  rw [hI.count, stripedAbs, List.toFinset_card_of_nodup hI.tbl.flatten_nodup]

theorem stripedInv_init (hash : α → Nat) {cap : Nat} (hpos : 0 < cap) :
    StripedInv hash (HashSetStriped.init (α := α) cap) := by
  refine ⟨⟨by simpa [HashSetStriped.init] using hpos, ?_, ?_⟩, ?_, by simpa [HashSetStriped.init]⟩
  · intro i
    simp [HashSetStriped.init, bucketAt_replicate_nil]
  · intro i e he
    rw [HashSetStriped.init] at he
    simp [bucketAt_replicate_nil] at he
  · simp [HashSetStriped.init, flatten_replicate_nil]

theorem stripedAbs_init (cap : Nat) :
    stripedAbs (HashSetStriped.init (α := α) cap) = ∅ := by
  simp [HashSetStriped.init, stripedAbs, flatten_replicate_nil]

/-- At positive capacity the integer comparison used by the embedding of
`loadFactorExceeded` agrees with the exact-arithmetic reading of the
source's `double` comparison `LoadFactor() > kLoadFactorThreshold`. -/
theorem loadFactorExceeded_iff (s : HashSetStriped α) (h : 0 < s.table_.length) :
    HashSetStriped.loadFactorExceeded s = true
      ↔ HashSetStriped.LoadFactor s > HashSetStriped.kLoadFactorThreshold := by
  rw [HashSetStriped.loadFactorExceeded, decide_eq_true_iff, HashSetStriped.LoadFactor,
      HashSetStriped.kLoadFactorThreshold]
  simp only [gt_iff_lt]
  rw [lt_div_iff₀ (by exact_mod_cast h)]
  constructor
  · intro hx
    have : (4 * s.table_.length : ℚ) < (s.size_ : ℚ) := by exact_mod_cast hx
    linarith
  · intro hx
    have : (4 * s.table_.length : ℚ) < (s.size_ : ℚ) := by linarith
    exact_mod_cast this

/-- `Resize` of the striped variant never touches the lock array. -/
theorem stripedResize_locks (hash : α → Nat) (s : HashSetStriped α) :
    (HashSetStriped.Resize hash s).locks_ = s.locks_ := by
  rw [HashSetStriped.Resize]
  split <;> rfl

/-- `Resize` of the striped variant preserves the invariant, the stored set
and the counter; when the re-checked load factor is still exceeded it
doubles the capacity, otherwise it leaves the state untouched. -/
theorem stripedResize_spec {hash : α → Nat} {s : HashSetStriped α}
    (hI : StripedInv hash s) :
    StripedInv hash (HashSetStriped.Resize hash s)
    ∧ stripedAbs (HashSetStriped.Resize hash s) = stripedAbs s
    ∧ (HashSetStriped.Resize hash s).size_ = s.size_
    ∧ (HashSetStriped.loadFactorExceeded s = true →
        (HashSetStriped.Resize hash s).table_.length = s.table_.length * 2)
    ∧ (HashSetStriped.loadFactorExceeded s = false →
        HashSetStriped.Resize hash s = s) := by
  have hnd := hI.tbl.flatten_nodup
  have hpos : 0 < s.table_.length * 2 := by have := hI.tbl.cap_pos; omega
  by_cases hlf : HashSetStriped.loadFactorExceeded s = true
  · have heq : HashSetStriped.Resize hash s =
        ⟨rehash hash s.table_.flatten (s.table_.length * 2), s.locks_, s.size_⟩ := by
      rw [HashSetStriped.Resize, if_pos hlf]
    rw [heq]
    refine ⟨⟨tableInv_rehash hash hnd hpos, ?_, hI.locks_pos⟩, ?_, rfl, fun _ => ?_, ?_⟩
    · simp [length_rehash_flatten hash _ hpos, hI.count]
    · ext x
      simp [stripedAbs, mem_rehash_flatten hash hnd hpos]
    · simp [length_rehash]
    · intro hc
      rw [hlf] at hc
      cases hc
  · have heq : HashSetStriped.Resize hash s = s := by
      rw [HashSetStriped.Resize, if_neg hlf]
    rw [heq]
    exact ⟨hI, rfl, rfl, fun hc => absurd hc hlf, fun _ => rfl⟩

/-- `Add` of the striped variant returns true iff the element was absent and
makes the stored set exactly the old set plus the element; the lock count is
untouched. -/
theorem stripedAdd_spec {hash : α → Nat} {s : HashSetStriped α}
    (hI : StripedInv hash s) (e : α) :
    (HashSetStriped.Add hash s e).1 = decide (e ∉ stripedAbs s)
    ∧ StripedInv hash (HashSetStriped.Add hash s e).2
    ∧ stripedAbs (HashSetStriped.Add hash s e).2 = insert e (stripedAbs s)
    ∧ (HashSetStriped.Add hash s e).2.locks_ = s.locks_ := by
  by_cases he : e ∈ bucketAt s.table_ (hash e % s.table_.length)
  · have hmem : e ∈ s.table_.flatten := (hI.tbl.mem_flatten_iff e).mpr he
    have habs : e ∈ stripedAbs s := List.mem_toFinset.mpr hmem
    have heq : HashSetStriped.Add hash s e = (false, s) := by
      simp [HashSetStriped.Add, he]
    rw [heq]
    exact ⟨by simp [habs], hI, by simp [Finset.insert_eq_self.mpr habs], rfl⟩
  · have hmem : e ∉ s.table_.flatten := fun h => he ((hI.tbl.mem_flatten_iff e).mp h)
    have habs : e ∉ stripedAbs s := fun h => hmem (List.mem_toFinset.mp h)
    obtain ⟨hI', hlen, hmemiff⟩ := tableInsert_spec hI.tbl e he
    set t' := s.table_.set (hash e % s.table_.length)
        (bucketAt s.table_ (hash e % s.table_.length) ++ [e]) with ht'
    have hcount' : s.size_ + 1 = t'.flatten.length := by rw [hlen, hI.count]
    have hI1 : StripedInv hash ⟨t', s.locks_, s.size_ + 1⟩ := ⟨hI', hcount', hI.locks_pos⟩
    have habs' : stripedAbs ⟨t', s.locks_, s.size_ + 1⟩ = insert e (stripedAbs s) := by
      ext x
      simp only [stripedAbs, List.mem_toFinset, Finset.mem_insert, hmemiff x]
      tauto
    by_cases hlf : HashSetStriped.loadFactorExceeded (⟨t', s.locks_, s.size_ + 1⟩ :
        HashSetStriped α) = true
    · have heq : HashSetStriped.Add hash s e =
          (true, HashSetStriped.Resize hash ⟨t', s.locks_, s.size_ + 1⟩) := by
        simp only [HashSetStriped.Add]
        rw [if_neg he, if_pos hlf]
      rw [heq]
      obtain ⟨hIr, habsr, _, _, _⟩ := stripedResize_spec hI1
      exact ⟨by simp [habs], hIr, by rw [habsr, habs'],
        (stripedResize_locks hash _).trans rfl⟩
    · have heq : HashSetStriped.Add hash s e = (true, ⟨t', s.locks_, s.size_ + 1⟩) := by
        simp only [HashSetStriped.Add]
        rw [if_neg he, if_neg hlf]
      rw [heq]
      exact ⟨by simp [habs], hI1, habs', rfl⟩

/-- `Remove` of the striped variant returns true iff the element was present
and makes the stored set exactly the old set minus the element; on a miss
the state is unchanged, and the lock count is never touched. -/
theorem stripedRemove_spec {hash : α → Nat} {s : HashSetStriped α}
    (hI : StripedInv hash s) (e : α) :
    (HashSetStriped.Remove hash s e).1 = decide (e ∈ stripedAbs s)
    ∧ StripedInv hash (HashSetStriped.Remove hash s e).2
    ∧ stripedAbs (HashSetStriped.Remove hash s e).2 = (stripedAbs s).erase e
    ∧ ((HashSetStriped.Remove hash s e).1 = false →
        (HashSetStriped.Remove hash s e).2 = s)
    ∧ (HashSetStriped.Remove hash s e).2.locks_ = s.locks_ := by
  by_cases he : e ∈ bucketAt s.table_ (hash e % s.table_.length)
  · have hmem : e ∈ s.table_.flatten := (hI.tbl.mem_flatten_iff e).mpr he
    have habs : e ∈ stripedAbs s := List.mem_toFinset.mpr hmem
    obtain ⟨hI', hlen, hmemiff⟩ := tableErase_spec hI.tbl e he
    set t' := s.table_.set (hash e % s.table_.length)
        ((bucketAt s.table_ (hash e % s.table_.length)).erase e) with ht'
    have heq : HashSetStriped.Remove hash s e = (true, ⟨t', s.locks_, s.size_ - 1⟩) := by
      simp only [HashSetStriped.Remove]
      rw [if_pos he]
    rw [heq]
    refine ⟨by simp [habs], ⟨hI', ?_, hI.locks_pos⟩, ?_, by simp, rfl⟩
    · show s.size_ - 1 = t'.flatten.length
      rw [hI.count]
      omega
    ext x
    simp only [stripedAbs, List.mem_toFinset, Finset.mem_erase, hmemiff x]
    tauto
  · have hmem : e ∉ s.table_.flatten := fun h => he ((hI.tbl.mem_flatten_iff e).mp h)
    have habs : e ∉ stripedAbs s := fun h => hmem (List.mem_toFinset.mp h)
    have heq : HashSetStriped.Remove hash s e = (false, s) := by
      simp [HashSetStriped.Remove, he]
    rw [heq]
    exact ⟨by simp [habs], hI, by simp [Finset.erase_eq_self.mpr habs], fun _ => rfl, rfl⟩

/-- `Contains` of the striped variant decides membership in the stored set. -/
theorem stripedContains_spec {hash : α → Nat} {s : HashSetStriped α}
    (hI : StripedInv hash s) (e : α) :
    HashSetStriped.Contains hash s e = decide (e ∈ stripedAbs s) := by
  rw [HashSetStriped.Contains]
  by_cases he : e ∈ bucketAt s.table_ (hash e % s.table_.length)
  · simp [he, stripedAbs, List.mem_toFinset, (hI.tbl.mem_flatten_iff e).mpr he]
  · have habs : e ∉ stripedAbs s :=
      fun hx => he ((hI.tbl.mem_flatten_iff e).mp (List.mem_toFinset.mp hx))
    simp [he, habs]

/-- One striped step refines one abstract step and never touches the lock
array. -/
theorem stripedStep_spec {hash : α → Nat} {s : HashSetStriped α}
    (hI : StripedInv hash s) (op : Op α) :
    (stripedStep hash s op).1 = (absStep (stripedAbs s) op).1
    ∧ StripedInv hash (stripedStep hash s op).2
    ∧ stripedAbs (stripedStep hash s op).2 = (absStep (stripedAbs s) op).2
    ∧ (stripedStep hash s op).2.locks_ = s.locks_ := by
  cases op with
  | add e =>
    obtain ⟨h1, h2, h3, h4⟩ := stripedAdd_spec hI e
    exact ⟨by simp [stripedStep, absStep, h1], by simpa [stripedStep] using h2,
      by simpa [stripedStep, absStep] using h3, by simpa [stripedStep] using h4⟩
  | remove e =>
    obtain ⟨h1, h2, h3, _, h5⟩ := stripedRemove_spec hI e
    exact ⟨by simp [stripedStep, absStep, h1], by simpa [stripedStep] using h2,
      by simpa [stripedStep, absStep] using h3, by simpa [stripedStep] using h5⟩
  | contains e =>
    exact ⟨by simp [stripedStep, absStep, stripedContains_spec hI e], hI,
      by simp [stripedStep, absStep], rfl⟩
  | size =>
    exact ⟨by simp [stripedStep, absStep, HashSetStriped.Size, stripedSize_eq_card hI], hI,
      by simp [stripedStep, absStep], rfl⟩

/-- A striped run refines the abstract run and keeps its construction-time
lock count forever. -/
theorem stripedRun_spec {hash : α → Nat} (ops : List (Op α)) :
    ∀ s : HashSetStriped α, StripedInv hash s →
    (stripedRun hash s ops).1 = (absRun (stripedAbs s) ops).1
    ∧ StripedInv hash (stripedRun hash s ops).2
    ∧ stripedAbs (stripedRun hash s ops).2 = (absRun (stripedAbs s) ops).2
    ∧ (stripedRun hash s ops).2.locks_ = s.locks_ := by
  induction ops with
  | nil => exact fun s hI => ⟨rfl, hI, rfl, rfl⟩
  | cons op ops ih =>
    intro s hI
    obtain ⟨h1, h2, h3, h4⟩ := stripedStep_spec hI op
    obtain ⟨ih1, ih2, ih3, ih4⟩ := ih _ h2
    refine ⟨?_, by simpa [stripedRun] using ih2, ?_, ?_⟩
    · simp only [stripedRun, absRun]
      rw [h1, ih1, h3]
    · simp only [stripedRun, absRun]
      rw [ih3, h3]
    · show (stripedRun hash (stripedStep hash s op).2 ops).2.locks_ = s.locks_
      rw [ih4, h4]

theorem refSize_eq_card {hash : α → Nat} {s : HashSetRefinable α}
    (hI : RefInv hash s) : s.size_ = (refAbs s).card := by
  rw [hI.count, refAbs, List.toFinset_card_of_nodup hI.tbl.flatten_nodup]

theorem refInv_init (hash : α → Nat) {cap : Nat} (hpos : 0 < cap) :
    RefInv hash (HashSetRefinable.init (α := α) cap) := by
  refine ⟨⟨by simpa [HashSetRefinable.init] using hpos, ?_, ?_⟩, ?_, ?_⟩
  · intro i
    simp [HashSetRefinable.init, bucketAt_replicate_nil]
  · intro i e he
    rw [HashSetRefinable.init] at he
    simp [bucketAt_replicate_nil] at he
  · simp [HashSetRefinable.init, flatten_replicate_nil]
  · simp [HashSetRefinable.init]

theorem refAbs_init (cap : Nat) :
    refAbs (HashSetRefinable.init (α := α) cap) = ∅ := by
  simp [HashSetRefinable.init, refAbs, flatten_replicate_nil]

/-- `MaybeResize` preserves the invariant, the stored set and the counter;
when the re-validated load factor is exceeded it quadruples the capacity
and recreates one shard per bucket, otherwise it returns with no change. -/
theorem refMaybeResize_spec {hash : α → Nat} {s : HashSetRefinable α}
    (hI : RefInv hash s) :
    RefInv hash (HashSetRefinable.MaybeResize hash s)
    ∧ refAbs (HashSetRefinable.MaybeResize hash s) = refAbs s
    ∧ (HashSetRefinable.MaybeResize hash s).size_ = s.size_
    ∧ (s.size_ > 4 * s.state_.buckets.length →
        (HashSetRefinable.MaybeResize hash s).state_.buckets.length
          = s.state_.buckets.length * 4)
    ∧ (s.size_ ≤ 4 * s.state_.buckets.length →
        HashSetRefinable.MaybeResize hash s = s) := by
  have hnd := hI.tbl.flatten_nodup
  have hpos : 0 < s.state_.buckets.length * 4 := by have := hI.tbl.cap_pos; omega
  by_cases hlf : s.size_ ≤ HashSetRefinable.kLoadFactorThreshold * s.state_.buckets.length
  · have heq : HashSetRefinable.MaybeResize hash s = s := by
      rw [HashSetRefinable.MaybeResize, if_pos hlf]
    rw [heq]
    have hle : s.size_ ≤ 4 * s.state_.buckets.length := hlf
    exact ⟨hI, rfl, rfl, fun hgt => absurd hle (by omega), fun _ => rfl⟩
  · have heq : HashSetRefinable.MaybeResize hash s =
        ⟨⟨rehash hash s.state_.buckets.flatten (s.state_.buckets.length * 4),
          s.state_.buckets.length * 4⟩, s.size_⟩ := by
      rw [HashSetRefinable.MaybeResize, if_neg hlf, if_neg hlf]
    rw [heq]
    refine ⟨⟨tableInv_rehash hash hnd hpos, ?_, ?_⟩, ?_, rfl, fun _ => ?_, fun hle => ?_⟩
    · simp [length_rehash_flatten hash _ hpos, hI.count]
    · simp [length_rehash]
    · ext x
      simp [refAbs, mem_rehash_flatten hash hnd hpos]
    · simp [length_rehash]
    · exact absurd hle (by simpa [HashSetRefinable.kLoadFactorThreshold] using hlf)

/-- `Add` of the refinable variant returns true iff the element was absent
and makes the stored set exactly the old set plus the element. -/
theorem refAdd_spec {hash : α → Nat} {s : HashSetRefinable α}
    (hI : RefInv hash s) (e : α) :
    (HashSetRefinable.Add hash s e).1 = decide (e ∉ refAbs s)
    ∧ RefInv hash (HashSetRefinable.Add hash s e).2
    ∧ refAbs (HashSetRefinable.Add hash s e).2 = insert e (refAbs s) := by
  by_cases he : e ∈ bucketAt s.state_.buckets (hash e % s.state_.buckets.length)
  · have hmem : e ∈ s.state_.buckets.flatten := (hI.tbl.mem_flatten_iff e).mpr he
    have habs : e ∈ refAbs s := List.mem_toFinset.mpr hmem
    have heq : HashSetRefinable.Add hash s e = (false, s) := by
      simp [HashSetRefinable.Add, HashSetRefinable.BucketIndex, he]
    rw [heq]
    exact ⟨by simp [habs], hI, by simp [Finset.insert_eq_self.mpr habs]⟩
  · have hmem : e ∉ s.state_.buckets.flatten := fun h => he ((hI.tbl.mem_flatten_iff e).mp h)
    have habs : e ∉ refAbs s := fun h => hmem (List.mem_toFinset.mp h)
    obtain ⟨hI', hlen, hmemiff⟩ := tableInsert_spec hI.tbl e he
    set t' := s.state_.buckets.set (hash e % s.state_.buckets.length)
        (bucketAt s.state_.buckets (hash e % s.state_.buckets.length) ++ [e]) with ht'
    have hcount' : s.size_ + 1 = t'.flatten.length := by rw [hlen, hI.count]
    have hlen' : t'.length = s.state_.buckets.length := List.length_set ..
    have hI1 : RefInv hash ⟨⟨t', s.state_.locks⟩, s.size_ + 1⟩ :=
      ⟨hI', hcount', by rw [hI.locks_eq]; exact hlen'.symm⟩
    have habs' : refAbs ⟨⟨t', s.state_.locks⟩, s.size_ + 1⟩ = insert e (refAbs s) := by
      ext x
      simp only [refAbs, List.mem_toFinset, Finset.mem_insert, hmemiff x]
      tauto
    by_cases hlf : s.size_ + 1 > HashSetRefinable.kLoadFactorThreshold * t'.length
    · have heq : HashSetRefinable.Add hash s e =
          (true, HashSetRefinable.MaybeResize hash ⟨⟨t', s.state_.locks⟩, s.size_ + 1⟩) := by
        simp only [HashSetRefinable.Add, HashSetRefinable.BucketIndex]
        rw [if_neg he, if_pos (by exact hlf)]
      rw [heq]
      obtain ⟨hIr, habsr, _, _, _⟩ := refMaybeResize_spec hI1
      exact ⟨by simp [habs], hIr, by rw [habsr, habs']⟩
    · have heq : HashSetRefinable.Add hash s e =
          (true, ⟨⟨t', s.state_.locks⟩, s.size_ + 1⟩) := by
        simp only [HashSetRefinable.Add, HashSetRefinable.BucketIndex]
        rw [if_neg he, if_neg (by exact hlf)]
      rw [heq]
      exact ⟨by simp [habs], hI1, habs'⟩

/-- `Remove` of the refinable variant returns true iff the element was
present and makes the stored set exactly the old set minus the element; on
a miss the state is unchanged. -/
theorem refRemove_spec {hash : α → Nat} {s : HashSetRefinable α}
    (hI : RefInv hash s) (e : α) :
    (HashSetRefinable.Remove hash s e).1 = decide (e ∈ refAbs s)
    ∧ RefInv hash (HashSetRefinable.Remove hash s e).2
    ∧ refAbs (HashSetRefinable.Remove hash s e).2 = (refAbs s).erase e
    ∧ ((HashSetRefinable.Remove hash s e).1 = false →
        (HashSetRefinable.Remove hash s e).2 = s) := by
  by_cases he : e ∈ bucketAt s.state_.buckets (hash e % s.state_.buckets.length)
  · have hmem : e ∈ s.state_.buckets.flatten := (hI.tbl.mem_flatten_iff e).mpr he
    have habs : e ∈ refAbs s := List.mem_toFinset.mpr hmem
    obtain ⟨hI', hlen, hmemiff⟩ := tableErase_spec hI.tbl e he
    set t' := s.state_.buckets.set (hash e % s.state_.buckets.length)
        ((bucketAt s.state_.buckets (hash e % s.state_.buckets.length)).erase e) with ht'
    have hlen' : t'.length = s.state_.buckets.length := List.length_set ..
    have heq : HashSetRefinable.Remove hash s e =
        (true, ⟨⟨t', s.state_.locks⟩, s.size_ - 1⟩) := by
      simp only [HashSetRefinable.Remove, HashSetRefinable.BucketIndex]
      rw [if_pos he]
    rw [heq]
    refine ⟨by simp [habs], ⟨hI', ?_, by rw [hI.locks_eq]; exact hlen'.symm⟩, ?_, by simp⟩
    · show s.size_ - 1 = t'.flatten.length
      rw [hI.count]
      omega
    ext x
    simp only [refAbs, List.mem_toFinset, Finset.mem_erase, hmemiff x]
    tauto
  · have hmem : e ∉ s.state_.buckets.flatten := fun h => he ((hI.tbl.mem_flatten_iff e).mp h)
    have habs : e ∉ refAbs s := fun h => hmem (List.mem_toFinset.mp h)
    have heq : HashSetRefinable.Remove hash s e = (false, s) := by
      simp [HashSetRefinable.Remove, HashSetRefinable.BucketIndex, he]
    rw [heq]
    exact ⟨by simp [habs], hI, by simp [Finset.erase_eq_self.mpr habs], fun _ => rfl⟩

/-- `Contains` of the refinable variant decides membership in the stored
set. -/
theorem refContains_spec {hash : α → Nat} {s : HashSetRefinable α}
    (hI : RefInv hash s) (e : α) :
    HashSetRefinable.Contains hash s e = decide (e ∈ refAbs s) := by
  rw [HashSetRefinable.Contains, HashSetRefinable.BucketIndex]
  by_cases he : e ∈ bucketAt s.state_.buckets (hash e % s.state_.buckets.length)
  · simp [he, refAbs, List.mem_toFinset, (hI.tbl.mem_flatten_iff e).mpr he]
  · have habs : e ∉ refAbs s :=
      fun hx => he ((hI.tbl.mem_flatten_iff e).mp (List.mem_toFinset.mp hx))
    simp [he, habs]

/-- One refinable step refines one abstract step. -/
theorem refStep_spec {hash : α → Nat} {s : HashSetRefinable α}
    (hI : RefInv hash s) (op : Op α) :
    (refStep hash s op).1 = (absStep (refAbs s) op).1
    ∧ RefInv hash (refStep hash s op).2
    ∧ refAbs (refStep hash s op).2 = (absStep (refAbs s) op).2 := by
  cases op with
  | add e =>
    obtain ⟨h1, h2, h3⟩ := refAdd_spec hI e
    exact ⟨by simp [refStep, absStep, h1], by simpa [refStep] using h2,
      by simpa [refStep, absStep] using h3⟩
  | remove e =>
    obtain ⟨h1, h2, h3, _⟩ := refRemove_spec hI e
    exact ⟨by simp [refStep, absStep, h1], by simpa [refStep] using h2,
      by simpa [refStep, absStep] using h3⟩
  | contains e =>
    exact ⟨by simp [refStep, absStep, refContains_spec hI e], hI, by simp [refStep, absStep]⟩
  | size =>
    exact ⟨by simp [refStep, absStep, HashSetRefinable.Size, refSize_eq_card hI], hI,
      by simp [refStep, absStep]⟩

/-- A refinable run refines the abstract run. -/
theorem refRun_spec {hash : α → Nat} (ops : List (Op α)) :
    ∀ s : HashSetRefinable α, RefInv hash s →
    (refRun hash s ops).1 = (absRun (refAbs s) ops).1
    ∧ RefInv hash (refRun hash s ops).2
    ∧ refAbs (refRun hash s ops).2 = (absRun (refAbs s) ops).2 := by
  induction ops with
  | nil => exact fun s hI => ⟨rfl, hI, rfl⟩
  | cons op ops ih =>
    intro s hI
    obtain ⟨h1, h2, h3⟩ := refStep_spec hI op
    obtain ⟨ih1, ih2, ih3⟩ := ih _ h2
    refine ⟨?_, by simpa [refRun] using ih2, ?_⟩
    · simp only [refRun, absRun]
      rw [h1, ih1, h3]
    · simp only [refRun, absRun]
      rw [ih3, h3]

theorem addAll_spec {hash : α → Nat} (l : List α) :
    ∀ {s : HashSetSequential α}, SeqInv hash s →
    SeqInv hash (addAll hash s l)
    ∧ seqAbs (addAll hash s l) = seqAbs s ∪ l.toFinset := by
  induction l with
  | nil => exact fun hI => ⟨hI, by simp [addAll]⟩
  | cons e xs ih =>
    intro s hI
    obtain ⟨_, h2, h3⟩ := seqAdd_spec hI e
    obtain ⟨ih1, ih2⟩ := ih h2
    refine ⟨by simpa [addAll] using ih1, ?_⟩
    show seqAbs (addAll hash (HashSetSequential.Add hash s e).2 xs) = _
    rw [ih2, h3]
    ext x
    simp

/-- Inserting a duplicate-free list into a freshly constructed set stores
exactly its elements, so the size equals the list length. -/
theorem addAll_init_size {hash : α → Nat} {cap : Nat} (hpos : 0 < cap)
    {l : List α} (hnd : l.Nodup) :
    HashSetSequential.Size (addAll hash (HashSetSequential.init cap) l) = l.length
    ∧ ∀ x, HashSetSequential.Contains hash (addAll hash (HashSetSequential.init cap) l) x
        = decide (x ∈ l) := by
  obtain ⟨hI, habs⟩ := addAll_spec l (seqInv_init hash hpos)
  rw [seqAbs_init] at habs
  constructor
  · rw [HashSetSequential.Size, seqSize_eq_card hI, habs]
    simp [List.toFinset_card_of_nodup hnd]
  · intro x
    rw [seqContains_spec hI x, habs]
    simp

theorem harnessLoop_spec {hash : Int → Nat} {count : Nat} :
    ∀ (rem i : Nat) (s : HashSetSequential Int), SeqInv hash s →
    seqAbs s = Finset.Ico (i : ℤ) (count : ℤ) → i + rem = count →
    ∃ sf, harnessLoop hash count s i rem = (true, some sf)
      ∧ HashSetSequential.Size sf = 0 := by
  intro rem
  induction rem with
  | zero =>
    intro i s hI habs hic
    refine ⟨s, rfl, ?_⟩
    rw [HashSetSequential.Size, seqSize_eq_card hI, habs, Int.card_Ico]
    omega
  | succ rem ih =>
    intro i s hI habs hic
    have hilt : i < count := by omega
    have hsize : HashSetSequential.Size s = count - i := by
      rw [HashSetSequential.Size, seqSize_eq_card hI, habs, Int.card_Ico]
      omega
    have hmem : ((i : Int)) ∈ seqAbs s := by
      rw [habs, Finset.mem_Ico]
      constructor
      · exact le_refl _
      · exact_mod_cast hilt
    have hcont : HashSetSequential.Contains hash s (i : Int) = true := by
      rw [seqContains_spec hI]
      simpa using hmem
    obtain ⟨_, hIr, habsr, _⟩ := seqRemove_spec hI ((i : Int))
    have habs' : seqAbs (HashSetSequential.Remove hash s ((i : Int))).2
        = Finset.Ico ((i + 1 : Nat) : ℤ) (count : ℤ) := by
      rw [habsr, habs]
      ext x
      simp only [Finset.mem_erase, Finset.mem_Ico]
      push_cast
      omega
    obtain ⟨sf, hrest, hsf⟩ := ih (i + 1) _ hIr habs' (by omega)
    refine ⟨sf, ?_, hsf⟩
    rw [harnessLoop]
    simp only [hcont, if_true, hrest, hsize]
    simp

/-- For every positive capacity and every count, every check of the harness
passes and the process exits with code 0. -/
theorem harnessMain_spec (hash : Int → Nat) (cap count : Nat) (hpos : 0 < cap) :
    harnessMain hash cap count = some (0, true) := by
  have hcap0 : ¬ cap = 0 := by omega
  obtain ⟨hI1, habs1⟩ :=
    addAll_spec ((List.range count).map (fun i : Nat => (i : Int))) (seqInv_init (α := Int) hash hpos)
  rw [seqAbs_init] at habs1
  have habs1' : seqAbs (addAll hash (HashSetSequential.init cap)
      ((List.range count).map (fun i : Nat => (i : Int)))) = Finset.Ico (0 : ℤ) (count : ℤ) := by
    rw [habs1, Finset.empty_union]
    ext x
    rw [List.mem_toFinset, Finset.mem_Ico]
    constructor
    · intro hx
      obtain ⟨i, hi, hix⟩ := List.mem_map.mp hx
      rw [List.mem_range] at hi
      have hix2 : (i : ℤ) = x := hix
      omega
    · intro hx
      refine List.mem_map.mpr ⟨x.toNat, ?_, ?_⟩
      · rw [List.mem_range]
        omega
      · show ((x.toNat : Nat) : ℤ) = x
        omega
  have hsize1 : HashSetSequential.Size (addAll hash (HashSetSequential.init cap)
      ((List.range count).map (fun i : Nat => (i : Int)))) = count := by
    rw [HashSetSequential.Size, seqSize_eq_card hI1, habs1', Int.card_Ico]
    omega
  obtain ⟨sf, hloop, hsf⟩ := harnessLoop_spec count 0 _ hI1 habs1' (by omega)
  rw [harnessMain, if_neg hcap0]
  simp only [hsize1, hloop, hsf]
  simp

/-! ## The load factor is restored to the threshold after every operation -/

theorem seqAdd_load {hash : α → Nat} {s : HashSetSequential α} (hI : SeqInv hash s)
    (hL : s.size_ ≤ 4 * s.table_.length) (e : α) :
    (HashSetSequential.Add hash s e).2.size_
      ≤ 4 * (HashSetSequential.Add hash s e).2.table_.length := by
  by_cases he : e ∈ bucketAt s.table_ (hash e % s.table_.length)
  · have heq : HashSetSequential.Add hash s e = (false, s) := by
      simp [HashSetSequential.Add, HashSetSequential.BucketIndex, he]
    rw [heq]
    exact hL
  · set t' := s.table_.set (hash e % s.table_.length)
        (bucketAt s.table_ (hash e % s.table_.length) ++ [e]) with ht'
    have hlen' : t'.length = s.table_.length := List.length_set ..
    have hcap := hI.tbl.cap_pos
    by_cases hlf : s.size_ + 1 > HashSetSequential.kLoadFactorThreshold * t'.length
    · have heq : HashSetSequential.Add hash s e =
          (true, HashSetSequential.Resize hash ⟨t', s.size_ + 1⟩) := by
        simp only [HashSetSequential.Add, HashSetSequential.BucketIndex]
        rw [if_neg he, if_pos (by exact hlf)]
      rw [heq]
      show (HashSetSequential.Resize hash ⟨t', s.size_ + 1⟩).size_ ≤ _
      have hlenr : (HashSetSequential.Resize hash ⟨t', s.size_ + 1⟩).table_.length
          = t'.length * 2 := by
        simp [HashSetSequential.Resize, length_rehash]
      rw [hlenr]
      show s.size_ + 1 ≤ 4 * (t'.length * 2)
      omega
    · have heq : HashSetSequential.Add hash s e = (true, ⟨t', s.size_ + 1⟩) := by
        simp only [HashSetSequential.Add, HashSetSequential.BucketIndex]
        rw [if_neg he, if_neg (by exact hlf)]
      rw [heq]
      show s.size_ + 1 ≤ 4 * t'.length
      rw [HashSetSequential.kLoadFactorThreshold] at hlf
      omega

theorem seqStep_load {hash : α → Nat} {s : HashSetSequential α} (hI : SeqInv hash s)
    (hL : s.size_ ≤ 4 * s.table_.length) (op : Op α) :
    (seqStep hash s op).2.size_ ≤ 4 * (seqStep hash s op).2.table_.length := by
  cases op with
  | add e => simpa [seqStep] using seqAdd_load hI hL e
  | remove e =>
    show (HashSetSequential.Remove hash s e).2.size_
      ≤ 4 * (HashSetSequential.Remove hash s e).2.table_.length
    by_cases he : e ∈ bucketAt s.table_ (hash e % s.table_.length)
    · have heq : HashSetSequential.Remove hash s e = (true,
          ⟨s.table_.set (hash e % s.table_.length)
            ((bucketAt s.table_ (hash e % s.table_.length)).erase e), s.size_ - 1⟩) := by
        simp only [HashSetSequential.Remove, HashSetSequential.BucketIndex]
        rw [if_pos he]
      rw [heq]
      show s.size_ - 1 ≤ 4 * (s.table_.set _ _).length
      rw [List.length_set]
      omega
    · have heq : HashSetSequential.Remove hash s e = (false, s) := by
        simp [HashSetSequential.Remove, HashSetSequential.BucketIndex, he]
      rw [heq]
      exact hL
  | contains e => exact hL
  | size => exact hL

theorem seqRun_load {hash : α → Nat} (ops : List (Op α)) :
    ∀ s : HashSetSequential α, SeqInv hash s → s.size_ ≤ 4 * s.table_.length →
    (seqRun hash s ops).2.size_ ≤ 4 * (seqRun hash s ops).2.table_.length := by
  induction ops with
  | nil => exact fun s _ hL => hL
  | cons op ops ih =>
    intro s hI hL
    obtain ⟨_, h2, _⟩ := seqStep_spec hI op
    exact ih _ h2 (seqStep_load hI hL op)

theorem stripedAdd_load {hash : α → Nat} {s : HashSetStriped α} (hI : StripedInv hash s)
    (hL : s.size_ ≤ 4 * s.table_.length) (e : α) :
    (HashSetStriped.Add hash s e).2.size_
      ≤ 4 * (HashSetStriped.Add hash s e).2.table_.length := by
  by_cases he : e ∈ bucketAt s.table_ (hash e % s.table_.length)
  · have heq : HashSetStriped.Add hash s e = (false, s) := by
      simp [HashSetStriped.Add, he]
    rw [heq]
    exact hL
  · set t' := s.table_.set (hash e % s.table_.length)
        (bucketAt s.table_ (hash e % s.table_.length) ++ [e]) with ht'
    have hlen' : t'.length = s.table_.length := List.length_set ..
    have hcap := hI.tbl.cap_pos
    by_cases hlf : HashSetStriped.loadFactorExceeded
        (⟨t', s.locks_, s.size_ + 1⟩ : HashSetStriped α) = true
    · have heq : HashSetStriped.Add hash s e =
          (true, HashSetStriped.Resize hash ⟨t', s.locks_, s.size_ + 1⟩) := by
        simp only [HashSetStriped.Add]
        rw [if_neg he, if_pos hlf]
      rw [heq]
      have heqr : HashSetStriped.Resize hash ⟨t', s.locks_, s.size_ + 1⟩ =
          ⟨rehash hash t'.flatten (t'.length * 2), s.locks_, s.size_ + 1⟩ := by
        rw [HashSetStriped.Resize, if_pos hlf]
      rw [heqr]
      show s.size_ + 1 ≤ 4 * (rehash hash t'.flatten (t'.length * 2)).length
      rw [length_rehash]
      omega
    · have heq : HashSetStriped.Add hash s e = (true, ⟨t', s.locks_, s.size_ + 1⟩) := by
        simp only [HashSetStriped.Add]
        rw [if_neg he, if_neg hlf]
      rw [heq]
      show s.size_ + 1 ≤ 4 * t'.length
      simp only [HashSetStriped.loadFactorExceeded, decide_eq_true_eq] at hlf
      omega

theorem stripedStep_load {hash : α → Nat} {s : HashSetStriped α} (hI : StripedInv hash s)
    (hL : s.size_ ≤ 4 * s.table_.length) (op : Op α) :
    (stripedStep hash s op).2.size_ ≤ 4 * (stripedStep hash s op).2.table_.length := by
  cases op with
  | add e => simpa [stripedStep] using stripedAdd_load hI hL e
  | remove e =>
    show (HashSetStriped.Remove hash s e).2.size_
      ≤ 4 * (HashSetStriped.Remove hash s e).2.table_.length
    by_cases he : e ∈ bucketAt s.table_ (hash e % s.table_.length)
    · have heq : HashSetStriped.Remove hash s e = (true,
          ⟨s.table_.set (hash e % s.table_.length)
            ((bucketAt s.table_ (hash e % s.table_.length)).erase e),
            s.locks_, s.size_ - 1⟩) := by
        simp only [HashSetStriped.Remove]
        rw [if_pos he]
      rw [heq]
      show s.size_ - 1 ≤ 4 * (s.table_.set _ _).length
      rw [List.length_set]
      omega
    · have heq : HashSetStriped.Remove hash s e = (false, s) := by
        simp [HashSetStriped.Remove, he]
      rw [heq]
      exact hL
  | contains e => exact hL
  | size => exact hL

theorem stripedRun_load {hash : α → Nat} (ops : List (Op α)) :
    ∀ s : HashSetStriped α, StripedInv hash s → s.size_ ≤ 4 * s.table_.length →
    (stripedRun hash s ops).2.size_ ≤ 4 * (stripedRun hash s ops).2.table_.length := by
  induction ops with
  | nil => exact fun s _ hL => hL
  | cons op ops ih =>
    intro s hI hL
    obtain ⟨_, h2, _, _⟩ := stripedStep_spec hI op
    exact ih _ h2 (stripedStep_load hI hL op)

theorem refAdd_load {hash : α → Nat} {s : HashSetRefinable α} (hI : RefInv hash s)
    (hL : s.size_ ≤ 4 * s.state_.buckets.length) (e : α) :
    (HashSetRefinable.Add hash s e).2.size_
      ≤ 4 * (HashSetRefinable.Add hash s e).2.state_.buckets.length := by
  by_cases he : e ∈ bucketAt s.state_.buckets (hash e % s.state_.buckets.length)
  · have heq : HashSetRefinable.Add hash s e = (false, s) := by
      simp [HashSetRefinable.Add, HashSetRefinable.BucketIndex, he]
    rw [heq]
    exact hL
  · set t' := s.state_.buckets.set (hash e % s.state_.buckets.length)
        (bucketAt s.state_.buckets (hash e % s.state_.buckets.length) ++ [e]) with ht'
    have hlen' : t'.length = s.state_.buckets.length := List.length_set ..
    have hcap := hI.tbl.cap_pos
    by_cases hlf : s.size_ + 1 > HashSetRefinable.kLoadFactorThreshold * t'.length
    · have heq : HashSetRefinable.Add hash s e =
          (true, HashSetRefinable.MaybeResize hash ⟨⟨t', s.state_.locks⟩, s.size_ + 1⟩) := by
        simp only [HashSetRefinable.Add, HashSetRefinable.BucketIndex]
        rw [if_neg he, if_pos (by exact hlf)]
      rw [heq]
      rw [HashSetRefinable.kLoadFactorThreshold] at hlf
      have hnle : ¬ (s.size_ + 1 ≤ HashSetRefinable.kLoadFactorThreshold * t'.length) := by
        rw [HashSetRefinable.kLoadFactorThreshold]
        omega
      have heqr : HashSetRefinable.MaybeResize hash ⟨⟨t', s.state_.locks⟩, s.size_ + 1⟩ =
          ⟨⟨rehash hash t'.flatten (t'.length * 4), t'.length * 4⟩, s.size_ + 1⟩ := by
        rw [HashSetRefinable.MaybeResize, if_neg hnle, if_neg hnle]
      rw [heqr]
      show s.size_ + 1 ≤ 4 * (rehash hash t'.flatten (t'.length * 4)).length
      rw [length_rehash]
      omega
    · have heq : HashSetRefinable.Add hash s e =
          (true, ⟨⟨t', s.state_.locks⟩, s.size_ + 1⟩) := by
        simp only [HashSetRefinable.Add, HashSetRefinable.BucketIndex]
        rw [if_neg he, if_neg (by exact hlf)]
      rw [heq]
      show s.size_ + 1 ≤ 4 * t'.length
      rw [HashSetRefinable.kLoadFactorThreshold] at hlf
      omega

theorem refStep_load {hash : α → Nat} {s : HashSetRefinable α} (hI : RefInv hash s)
    (hL : s.size_ ≤ 4 * s.state_.buckets.length) (op : Op α) :
    (refStep hash s op).2.size_ ≤ 4 * (refStep hash s op).2.state_.buckets.length := by
  cases op with
  | add e => simpa [refStep] using refAdd_load hI hL e
  | remove e =>
    show (HashSetRefinable.Remove hash s e).2.size_
      ≤ 4 * (HashSetRefinable.Remove hash s e).2.state_.buckets.length
    by_cases he : e ∈ bucketAt s.state_.buckets (hash e % s.state_.buckets.length)
    · have heq : HashSetRefinable.Remove hash s e = (true,
          ⟨⟨s.state_.buckets.set (hash e % s.state_.buckets.length)
            ((bucketAt s.state_.buckets (hash e % s.state_.buckets.length)).erase e),
            s.state_.locks⟩, s.size_ - 1⟩) := by
        simp only [HashSetRefinable.Remove, HashSetRefinable.BucketIndex]
        rw [if_pos he]
      rw [heq]
      show s.size_ - 1 ≤ 4 * (s.state_.buckets.set _ _).length
      rw [List.length_set]
      omega
    · have heq : HashSetRefinable.Remove hash s e = (false, s) := by
        simp [HashSetRefinable.Remove, HashSetRefinable.BucketIndex, he]
      rw [heq]
      exact hL
  | contains e => exact hL
  | size => exact hL

theorem refRun_load {hash : α → Nat} (ops : List (Op α)) :
    ∀ s : HashSetRefinable α, RefInv hash s → s.size_ ≤ 4 * s.state_.buckets.length →
    (refRun hash s ops).2.size_ ≤ 4 * (refRun hash s ops).2.state_.buckets.length := by
  induction ops with
  | nil => exact fun s _ hL => hL
  | cons op ops ih =>
    intro s hI hL
    obtain ⟨_, h2, _⟩ := refStep_spec hI op
    exact ih _ h2 (refStep_load hI hL op)

/-! ## The striped lock array is never touched by any operation -/

theorem stripedAdd_locks (hash : α → Nat) (s : HashSetStriped α) (e : α) :
    (HashSetStriped.Add hash s e).2.locks_ = s.locks_ := by
  by_cases he : e ∈ bucketAt s.table_ (hash e % s.table_.length)
  · simp [HashSetStriped.Add, he]
  · simp only [HashSetStriped.Add]
    rw [if_neg he]
    by_cases hlf : HashSetStriped.loadFactorExceeded
        (⟨s.table_.set (hash e % s.table_.length)
          (bucketAt s.table_ (hash e % s.table_.length) ++ [e]),
          s.locks_, s.size_ + 1⟩ : HashSetStriped α) = true
    · rw [if_pos hlf]
      exact stripedResize_locks hash _
    · rw [if_neg hlf]

theorem stripedStep_locks (hash : α → Nat) (s : HashSetStriped α) (op : Op α) :
    (stripedStep hash s op).2.locks_ = s.locks_ := by
  cases op with
  | add e => simpa [stripedStep] using stripedAdd_locks hash s e
  | remove e =>
    show (HashSetStriped.Remove hash s e).2.locks_ = s.locks_
    by_cases he : e ∈ bucketAt s.table_ (hash e % s.table_.length)
    · simp only [HashSetStriped.Remove]
      rw [if_pos he]
    · simp [HashSetStriped.Remove, he]
  | contains e => rfl
  | size => rfl

theorem stripedRun_locks (hash : α → Nat) (ops : List (Op α)) :
    ∀ s : HashSetStriped α, (stripedRun hash s ops).2.locks_ = s.locks_ := by
  induction ops with
  | nil => exact fun _ => rfl
  | cons op ops ih =>
    intro s
    show (stripedRun hash (stripedStep hash s op).2 ops).2.locks_ = s.locks_
    rw [ih, stripedStep_locks]

/-! ## The claimed properties -/

/-- C1: for every single-threaded sequence of Add, Remove, Contains and Size
operations, the striped variant and the refinable variant, each started with
the same positive initial capacity as the sequential variant, produce
exactly the same sequence of return values and the same final membership as
the sequential variant, even though their internal resize factors differ
(2x for sequential and striped, 4x for refinable). -/
theorem claim1_single_threaded_equivalence (hash : α → Nat) (cap : Nat)
    (ops : List (Op α)) (hpos : 0 < cap) :
    (stripedRun hash (HashSetStriped.init cap) ops).1
      = (seqRun hash (HashSetSequential.init cap) ops).1
    ∧ (refRun hash (HashSetRefinable.init cap) ops).1
      = (seqRun hash (HashSetSequential.init cap) ops).1
    ∧ (∀ x : α, x ∈ stripedAbs (stripedRun hash (HashSetStriped.init cap) ops).2
        ↔ x ∈ seqAbs (seqRun hash (HashSetSequential.init cap) ops).2)
    ∧ (∀ x : α, x ∈ refAbs (refRun hash (HashSetRefinable.init cap) ops).2
        ↔ x ∈ seqAbs (seqRun hash (HashSetSequential.init cap) ops).2) := by
  obtain ⟨hs1, _, hs3⟩ := seqRun_spec ops _ (seqInv_init hash hpos)
  obtain ⟨ht1, _, ht3, _⟩ := stripedRun_spec ops _ (stripedInv_init hash hpos)
  obtain ⟨hr1, _, hr3⟩ := refRun_spec ops _ (refInv_init hash hpos)
  rw [seqAbs_init] at hs1 hs3
  rw [stripedAbs_init] at ht1 ht3
  rw [refAbs_init] at hr1 hr3
  exact ⟨by rw [ht1, hs1], by rw [hr1, hs1],
    fun x => by rw [ht3, hs3], fun x => by rw [hr3, hs3]⟩

theorem claim1_witness :
    0 < 1
    ∧ ((stripedRun id (HashSetStriped.init 1)
          [Op.add 5, Op.add 5, Op.remove 3, Op.contains 5, Op.size]).1
        = (seqRun id (HashSetSequential.init 1)
          [Op.add 5, Op.add 5, Op.remove 3, Op.contains 5, Op.size]).1
      ∧ (refRun id (HashSetRefinable.init 1)
          [Op.add 5, Op.add 5, Op.remove 3, Op.contains 5, Op.size]).1
        = (seqRun id (HashSetSequential.init 1)
          [Op.add 5, Op.add 5, Op.remove 3, Op.contains 5, Op.size]).1
      ∧ (∀ x : Nat, x ∈ stripedAbs (stripedRun id (HashSetStriped.init 1)
            [Op.add 5, Op.add 5, Op.remove 3, Op.contains 5, Op.size]).2
          ↔ x ∈ seqAbs (seqRun id (HashSetSequential.init 1)
            [Op.add 5, Op.add 5, Op.remove 3, Op.contains 5, Op.size]).2)
      ∧ (∀ x : Nat, x ∈ refAbs (refRun id (HashSetRefinable.init 1)
            [Op.add 5, Op.add 5, Op.remove 3, Op.contains 5, Op.size]).2
          ↔ x ∈ seqAbs (seqRun id (HashSetSequential.init 1)
            [Op.add 5, Op.add 5, Op.remove 3, Op.contains 5, Op.size]).2)) :=
  ⟨by decide, claim1_single_threaded_equivalence id 1
    [Op.add 5, Op.add 5, Op.remove 3, Op.contains 5, Op.size] (by decide)⟩

/-- C2: on any state satisfying the reachable-state invariant, `Add x`
inserts `x` exactly when no equal element is present and returns true iff
the insertion happened; when an equal element is present it returns false
and is a no-op, so a second consecutive `Add x` with no intervening removal
returns false and leaves `Size` unchanged.  Stated for the two cited
variants, sequential and refinable. -/
theorem claim2_add_semantics (hash : α → Nat) {s : HashSetSequential α}
    {r : HashSetRefinable α} (hs : SeqInv hash s) (hr : RefInv hash r) (e : α) :
    ((HashSetSequential.Add hash s e).1 = true ↔ e ∉ seqAbs s)
    ∧ seqAbs (HashSetSequential.Add hash s e).2 = insert e (seqAbs s)
    ∧ (e ∈ seqAbs s → HashSetSequential.Add hash s e = (false, s))
    ∧ (HashSetSequential.Add hash (HashSetSequential.Add hash s e).2 e).1 = false
    ∧ HashSetSequential.Size
        (HashSetSequential.Add hash (HashSetSequential.Add hash s e).2 e).2
      = HashSetSequential.Size (HashSetSequential.Add hash s e).2
    ∧ ((HashSetRefinable.Add hash r e).1 = true ↔ e ∉ refAbs r)
    ∧ refAbs (HashSetRefinable.Add hash r e).2 = insert e (refAbs r)
    ∧ (e ∈ refAbs r → HashSetRefinable.Add hash r e = (false, r))
    ∧ (HashSetRefinable.Add hash (HashSetRefinable.Add hash r e).2 e).1 = false := by
  obtain ⟨hs1, hs2, hs3⟩ := seqAdd_spec hs e
  obtain ⟨hr1, hr2, hr3⟩ := refAdd_spec hr e
  obtain ⟨hs1', _, _⟩ := seqAdd_spec hs2 e
  obtain ⟨hr1', _, _⟩ := refAdd_spec hr2 e
  have hmem2 : e ∈ seqAbs (HashSetSequential.Add hash s e).2 := by
    rw [hs3]; exact Finset.mem_insert_self e _
  have hmem2r : e ∈ refAbs (HashSetRefinable.Add hash r e).2 := by
    rw [hr3]; exact Finset.mem_insert_self e _
  have hsec : (HashSetSequential.Add hash (HashSetSequential.Add hash s e).2 e).1 = false := by
    rw [hs1']; simpa using hmem2
  have hnoop_any : ∀ w : HashSetSequential α, SeqInv hash w → e ∈ seqAbs w →
      HashSetSequential.Add hash w e = (false, w) := by
    intro w hw he
    have hb : e ∈ bucketAt w.table_ (hash e % w.table_.length) :=
      (hw.tbl.mem_flatten_iff e).mp (List.mem_toFinset.mp he)
    simp [HashSetSequential.Add, HashSetSequential.BucketIndex, hb]
  have hnoopr : e ∈ refAbs r → HashSetRefinable.Add hash r e = (false, r) := by
    intro he
    have hb : e ∈ bucketAt r.state_.buckets (hash e % r.state_.buckets.length) :=
      (hr.tbl.mem_flatten_iff e).mp (List.mem_toFinset.mp he)
    simp [HashSetRefinable.Add, HashSetRefinable.BucketIndex, hb]
  have hsec2 := hnoop_any _ hs2 hmem2
  refine ⟨by rw [hs1]; simp, hs3, hnoop_any s hs, hsec, by rw [hsec2], by rw [hr1]; simp,
    hr3, hnoopr, ?_⟩
  rw [hr1']
  simpa using hmem2r

theorem claim2_witness :
    SeqInv id (HashSetSequential.init (α := Nat) 2)
    ∧ RefInv id (HashSetRefinable.init (α := Nat) 2)
    ∧ (((HashSetSequential.Add id (HashSetSequential.init (α := Nat) 2) 7).1 = true
          ↔ 7 ∉ seqAbs (HashSetSequential.init (α := Nat) 2))
      ∧ seqAbs (HashSetSequential.Add id (HashSetSequential.init (α := Nat) 2) 7).2
          = insert 7 (seqAbs (HashSetSequential.init (α := Nat) 2))
      ∧ (7 ∈ seqAbs (HashSetSequential.init (α := Nat) 2) →
          HashSetSequential.Add id (HashSetSequential.init (α := Nat) 2) 7
            = (false, HashSetSequential.init (α := Nat) 2))
      ∧ (HashSetSequential.Add id
          (HashSetSequential.Add id (HashSetSequential.init (α := Nat) 2) 7).2 7).1 = false
      ∧ HashSetSequential.Size (HashSetSequential.Add id
            (HashSetSequential.Add id (HashSetSequential.init (α := Nat) 2) 7).2 7).2
          = HashSetSequential.Size
            (HashSetSequential.Add id (HashSetSequential.init (α := Nat) 2) 7).2
      ∧ ((HashSetRefinable.Add id (HashSetRefinable.init (α := Nat) 2) 7).1 = true
          ↔ 7 ∉ refAbs (HashSetRefinable.init (α := Nat) 2))
      ∧ refAbs (HashSetRefinable.Add id (HashSetRefinable.init (α := Nat) 2) 7).2
          = insert 7 (refAbs (HashSetRefinable.init (α := Nat) 2))
      ∧ (7 ∈ refAbs (HashSetRefinable.init (α := Nat) 2) →
          HashSetRefinable.Add id (HashSetRefinable.init (α := Nat) 2) 7
            = (false, HashSetRefinable.init (α := Nat) 2))
      ∧ (HashSetRefinable.Add id
          (HashSetRefinable.Add id (HashSetRefinable.init (α := Nat) 2) 7).2 7).1 = false) :=
  ⟨seqInv_init id (by decide), refInv_init id (by decide),
    claim2_add_semantics id (seqInv_init id (by decide)) (refInv_init id (by decide)) 7⟩

/-- C3: on any state satisfying the reachable-state invariant, `Remove x`
returns true iff an equal element was present; in that case it deletes
exactly one entry and decrements `Size` by one; if `x` is absent it returns
false and leaves the entire state unchanged.  Stated for the two cited
variants, sequential and striped. -/
theorem claim3_remove_semantics (hash : α → Nat) {s : HashSetSequential α}
    {t : HashSetStriped α} (hs : SeqInv hash s) (ht : StripedInv hash t) (e : α) :
    ((HashSetSequential.Remove hash s e).1 = true ↔ e ∈ seqAbs s)
    ∧ (e ∈ seqAbs s →
        HashSetSequential.Size (HashSetSequential.Remove hash s e).2 + 1
          = HashSetSequential.Size s
        ∧ (HashSetSequential.Remove hash s e).2.table_.flatten.length + 1
          = s.table_.flatten.length
        ∧ seqAbs (HashSetSequential.Remove hash s e).2 = (seqAbs s).erase e)
    ∧ (e ∉ seqAbs s → HashSetSequential.Remove hash s e = (false, s))
    ∧ ((HashSetStriped.Remove hash t e).1 = true ↔ e ∈ stripedAbs t)
    ∧ (e ∈ stripedAbs t →
        HashSetStriped.Size (HashSetStriped.Remove hash t e).2 + 1
          = HashSetStriped.Size t
        ∧ (HashSetStriped.Remove hash t e).2.table_.flatten.length + 1
          = t.table_.flatten.length
        ∧ stripedAbs (HashSetStriped.Remove hash t e).2 = (stripedAbs t).erase e)
    ∧ (e ∉ stripedAbs t → HashSetStriped.Remove hash t e = (false, t)) := by
  obtain ⟨hs1, hs2, hs3, hs4⟩ := seqRemove_spec hs e
  obtain ⟨ht1, ht2, ht3, ht4, _⟩ := stripedRemove_spec ht e
  refine ⟨by rw [hs1]; simp, ?_, ?_, by rw [ht1]; simp, ?_, ?_⟩
  · intro he
    have hsz : HashSetSequential.Size (HashSetSequential.Remove hash s e).2
        = (seqAbs s).card - 1 := by
      rw [HashSetSequential.Size, seqSize_eq_card hs2, hs3, Finset.card_erase_of_mem he]
    have hpos : 0 < (seqAbs s).card := Finset.card_pos.mpr ⟨e, he⟩
    have h1 : HashSetSequential.Size (HashSetSequential.Remove hash s e).2 + 1
        = HashSetSequential.Size s := by
      rw [hsz, HashSetSequential.Size, seqSize_eq_card hs]
      omega
    refine ⟨h1, ?_, hs3⟩
    have hc1 := hs.count
    have hc2 := hs2.count
    rw [HashSetSequential.Size, HashSetSequential.Size] at h1
    omega
  · intro he
    have hf : (HashSetSequential.Remove hash s e).1 = false := by
      rw [hs1]; simpa using he
    rw [Prod.ext_iff]
    exact ⟨hf, hs4 hf⟩
  · intro he
    have hsz : HashSetStriped.Size (HashSetStriped.Remove hash t e).2
        = (stripedAbs t).card - 1 := by
      rw [HashSetStriped.Size, stripedSize_eq_card ht2, ht3, Finset.card_erase_of_mem he]
    have hpos : 0 < (stripedAbs t).card := Finset.card_pos.mpr ⟨e, he⟩
    have h1 : HashSetStriped.Size (HashSetStriped.Remove hash t e).2 + 1
        = HashSetStriped.Size t := by
      rw [hsz, HashSetStriped.Size, stripedSize_eq_card ht]
      omega
    refine ⟨h1, ?_, ht3⟩
    have hc1 := ht.count
    have hc2 := ht2.count
    rw [HashSetStriped.Size, HashSetStriped.Size] at h1
    omega
  · intro he
    have hf : (HashSetStriped.Remove hash t e).1 = false := by
      rw [ht1]; simpa using he
    rw [Prod.ext_iff]
    exact ⟨hf, ht4 hf⟩

theorem claim3_witness :
    SeqInv id (HashSetSequential.init (α := Nat) 3)
    ∧ StripedInv id (HashSetStriped.init (α := Nat) 3)
    ∧ (((HashSetSequential.Remove id (HashSetSequential.init (α := Nat) 3) 4).1 = true
          ↔ 4 ∈ seqAbs (HashSetSequential.init (α := Nat) 3))
      ∧ (4 ∈ seqAbs (HashSetSequential.init (α := Nat) 3) →
          HashSetSequential.Size
              (HashSetSequential.Remove id (HashSetSequential.init (α := Nat) 3) 4).2 + 1
            = HashSetSequential.Size (HashSetSequential.init (α := Nat) 3)
          ∧ (HashSetSequential.Remove id
              (HashSetSequential.init (α := Nat) 3) 4).2.table_.flatten.length + 1
            = (HashSetSequential.init (α := Nat) 3).table_.flatten.length
          ∧ seqAbs (HashSetSequential.Remove id (HashSetSequential.init (α := Nat) 3) 4).2
            = (seqAbs (HashSetSequential.init (α := Nat) 3)).erase 4)
      ∧ (4 ∉ seqAbs (HashSetSequential.init (α := Nat) 3) →
          HashSetSequential.Remove id (HashSetSequential.init (α := Nat) 3) 4
            = (false, HashSetSequential.init (α := Nat) 3))
      ∧ ((HashSetStriped.Remove id (HashSetStriped.init (α := Nat) 3) 4).1 = true
          ↔ 4 ∈ stripedAbs (HashSetStriped.init (α := Nat) 3))
      ∧ (4 ∈ stripedAbs (HashSetStriped.init (α := Nat) 3) →
          HashSetStriped.Size
              (HashSetStriped.Remove id (HashSetStriped.init (α := Nat) 3) 4).2 + 1
            = HashSetStriped.Size (HashSetStriped.init (α := Nat) 3)
          ∧ (HashSetStriped.Remove id
              (HashSetStriped.init (α := Nat) 3) 4).2.table_.flatten.length + 1
            = (HashSetStriped.init (α := Nat) 3).table_.flatten.length
          ∧ stripedAbs (HashSetStriped.Remove id (HashSetStriped.init (α := Nat) 3) 4).2
            = (stripedAbs (HashSetStriped.init (α := Nat) 3)).erase 4)
      ∧ (4 ∉ stripedAbs (HashSetStriped.init (α := Nat) 3) →
          HashSetStriped.Remove id (HashSetStriped.init (α := Nat) 3) 4
            = (false, HashSetStriped.init (α := Nat) 3))) :=
  ⟨seqInv_init id (by decide), stripedInv_init id (by decide),
    claim3_remove_semantics id (seqInv_init id (by decide)) (stripedInv_init id (by decide)) 4⟩

/-- C4: every internal resize preserves exactly the set of stored elements —
after a growth event every previously inserted and not-removed element is
still a member, no element is duplicated, the entry count and `Size` are
unchanged by the resize itself — and inserting any duplicate-free list into
a freshly constructed set stores exactly its elements, so adding the 1000
distinct integers 0..999 at initial capacity 4 ends with `Size = 1000`. -/
theorem claim4_resize_preserves_membership (hash : α → Nat) {s : HashSetSequential α}
    {t : HashSetStriped α} {r : HashSetRefinable α} (hs : SeqInv hash s)
    (ht : StripedInv hash t) (hr : RefInv hash r) {l : List α} {cap : Nat}
    (hpos : 0 < cap) (hnd : l.Nodup) :
    seqAbs (HashSetSequential.Resize hash s) = seqAbs s
    ∧ (HashSetSequential.Resize hash s).table_.flatten.Nodup
    ∧ (HashSetSequential.Resize hash s).table_.flatten.length = s.table_.flatten.length
    ∧ HashSetSequential.Size (HashSetSequential.Resize hash s) = HashSetSequential.Size s
    ∧ stripedAbs (HashSetStriped.Resize hash t) = stripedAbs t
    ∧ (HashSetStriped.Resize hash t).table_.flatten.Nodup
    ∧ (HashSetStriped.Resize hash t).table_.flatten.length = t.table_.flatten.length
    ∧ HashSetStriped.Size (HashSetStriped.Resize hash t) = HashSetStriped.Size t
    ∧ refAbs (HashSetRefinable.MaybeResize hash r) = refAbs r
    ∧ (HashSetRefinable.MaybeResize hash r).state_.buckets.flatten.Nodup
    ∧ (HashSetRefinable.MaybeResize hash r).state_.buckets.flatten.length
        = r.state_.buckets.flatten.length
    ∧ HashSetRefinable.Size (HashSetRefinable.MaybeResize hash r)
        = HashSetRefinable.Size r
    ∧ HashSetSequential.Size (addAll hash (HashSetSequential.init cap) l) = l.length
    ∧ (∀ hashInt : Int → Nat,
        HashSetSequential.Size (addAll hashInt (HashSetSequential.init 4)
          ((List.range 1000).map (fun i : Nat => (i : Int)))) = 1000) := by
  obtain ⟨hs', habs, hsz, _⟩ := seqResize_spec hs
  obtain ⟨ht', habst, hszt, _, _⟩ := stripedResize_spec ht
  obtain ⟨hr', habsr, hszr, _, _⟩ := refMaybeResize_spec hr
  refine ⟨habs, hs'.tbl.flatten_nodup, ?_, hsz, habst, ht'.tbl.flatten_nodup, ?_, hszt,
    habsr, hr'.tbl.flatten_nodup, ?_, hszr, (addAll_init_size hpos hnd).1, ?_⟩
  · have h1 := hs'.count
    have h2 := hs.count
    omega
  · have h1 := ht'.count
    have h2 := ht.count
    omega
  · have h1 := hr'.count
    have h2 := hr.count
    omega
  · intro hashInt
    have hnd1000 : ((List.range 1000).map (fun i : Nat => (i : Int))).Nodup :=
      List.Nodup.map (fun a b h => by exact_mod_cast h) (List.nodup_range 1000)
    rw [(addAll_init_size (by decide) hnd1000).1]
    simp

theorem claim4_witness :
    SeqInv id (HashSetSequential.init (α := Nat) 2)
    ∧ StripedInv id (HashSetStriped.init (α := Nat) 2)
    ∧ RefInv id (HashSetRefinable.init (α := Nat) 2)
    ∧ 0 < 2
    ∧ ([3, 1, 2] : List Nat).Nodup
    ∧ (seqAbs (HashSetSequential.Resize id (HashSetSequential.init (α := Nat) 2))
        = seqAbs (HashSetSequential.init (α := Nat) 2)
      ∧ (HashSetSequential.Resize id
          (HashSetSequential.init (α := Nat) 2)).table_.flatten.Nodup
      ∧ (HashSetSequential.Resize id
          (HashSetSequential.init (α := Nat) 2)).table_.flatten.length
        = (HashSetSequential.init (α := Nat) 2).table_.flatten.length
      ∧ HashSetSequential.Size (HashSetSequential.Resize id
          (HashSetSequential.init (α := Nat) 2))
        = HashSetSequential.Size (HashSetSequential.init (α := Nat) 2)
      ∧ stripedAbs (HashSetStriped.Resize id (HashSetStriped.init (α := Nat) 2))
        = stripedAbs (HashSetStriped.init (α := Nat) 2)
      ∧ (HashSetStriped.Resize id (HashSetStriped.init (α := Nat) 2)).table_.flatten.Nodup
      ∧ (HashSetStriped.Resize id (HashSetStriped.init (α := Nat) 2)).table_.flatten.length
        = (HashSetStriped.init (α := Nat) 2).table_.flatten.length
      ∧ HashSetStriped.Size (HashSetStriped.Resize id (HashSetStriped.init (α := Nat) 2))
        = HashSetStriped.Size (HashSetStriped.init (α := Nat) 2)
      ∧ refAbs (HashSetRefinable.MaybeResize id (HashSetRefinable.init (α := Nat) 2))
        = refAbs (HashSetRefinable.init (α := Nat) 2)
      ∧ (HashSetRefinable.MaybeResize id
          (HashSetRefinable.init (α := Nat) 2)).state_.buckets.flatten.Nodup
      ∧ (HashSetRefinable.MaybeResize id
          (HashSetRefinable.init (α := Nat) 2)).state_.buckets.flatten.length
        = (HashSetRefinable.init (α := Nat) 2).state_.buckets.flatten.length
      ∧ HashSetRefinable.Size (HashSetRefinable.MaybeResize id
          (HashSetRefinable.init (α := Nat) 2))
        = HashSetRefinable.Size (HashSetRefinable.init (α := Nat) 2)
      ∧ HashSetSequential.Size (addAll id (HashSetSequential.init 2) [3, 1, 2]) = 3
      ∧ (∀ hashInt : Int → Nat,
          HashSetSequential.Size (addAll hashInt (HashSetSequential.init 4)
            ((List.range 1000).map (fun i : Nat => (i : Int)))) = 1000)) :=
  ⟨seqInv_init id (by decide), stripedInv_init id (by decide), refInv_init id (by decide),
    by decide, by decide,
    claim4_resize_preserves_membership id (seqInv_init id (by decide))
      (stripedInv_init id (by decide)) (refInv_init id (by decide))
      (by decide) (by decide)⟩

/-- C5: in every variant, every reachable state — constructed at a positive
capacity, then any single-threaded operation sequence — satisfies the four
data-model invariants simultaneously: the entry count across the table
equals the size counter (`count`), no two entries in one bucket are equal
(`bucket_nodup`), every stored element sits in the bucket indexed by its
hash modulo the current capacity (`placed`), and the capacity is never zero
(`cap_pos`), plus one shard per bucket for the refinable snapshot. -/
theorem claim5_reachable_invariants (hash : α → Nat) (cap : Nat) (ops : List (Op α))
    (hpos : 0 < cap) :
    SeqInv hash (seqRun hash (HashSetSequential.init cap) ops).2
    ∧ StripedInv hash (stripedRun hash (HashSetStriped.init cap) ops).2
    ∧ RefInv hash (refRun hash (HashSetRefinable.init cap) ops).2 :=
  ⟨(seqRun_spec ops _ (seqInv_init hash hpos)).2.1,
   (stripedRun_spec ops _ (stripedInv_init hash hpos)).2.1,
   (refRun_spec ops _ (refInv_init hash hpos)).2.1⟩

theorem claim5_witness :
    0 < 2
    ∧ (SeqInv id (seqRun id (HashSetSequential.init (α := Nat) 2)
        [Op.add 1, Op.add 2, Op.add 3, Op.remove 2, Op.contains 1, Op.size]).2
      ∧ StripedInv id (stripedRun id (HashSetStriped.init (α := Nat) 2)
        [Op.add 1, Op.add 2, Op.add 3, Op.remove 2, Op.contains 1, Op.size]).2
      ∧ RefInv id (refRun id (HashSetRefinable.init (α := Nat) 2)
        [Op.add 1, Op.add 2, Op.add 3, Op.remove 2, Op.contains 1, Op.size]).2) :=
  ⟨by decide, claim5_reachable_invariants id 2
    [Op.add 1, Op.add 2, Op.add 3, Op.remove 2, Op.contains 1, Op.size] (by decide)⟩

/-- C6 counterexample: for the numeric argument pair (0, 5) the harness does
not exit with code 0 even though no listed check fails — the constructor
assertion `initial_capacity > 0` aborts the process before any Add is
performed, so no exit code governed by the checks is produced at all
(modelled as `none`). -/
theorem claim6_counterexample :
    harnessMain (fun x : Int => x.natAbs) 0 5 = none
    ∧ ∀ p : Nat × Bool, harnessMain (fun x : Int => x.natAbs) 0 5 ≠ some p := by
  refine ⟨rfl, fun p h => ?_⟩
  rw [show harnessMain (fun x : Int => x.natAbs) 0 5 = none from rfl] at h
  cases h

/-- C6 (amended: with a positive initial capacity, as the constructor
precondition demands): the harness performs the adds, checks `Size = count`,
then for each value checks `Contains` before removing it and checks the size
decreases by one at each step, finally checks `Size = 0`; every one of these
checks passes and the process exits with code 0, so the exit code is 0
exactly when every check passes. -/
theorem claim6_harness_exit_code (hash : Int → Nat) (cap count : Nat) (hpos : 0 < cap) :
    harnessMain hash cap count = some (0, true)
    ∧ (∀ code ok, harnessMain hash cap count = some (code, ok) →
        (code = 0 ↔ ok = true)) := by
  have h := harnessMain_spec hash cap count hpos
  refine ⟨h, fun code ok hco => ?_⟩
  rw [h] at hco
  obtain ⟨h1, h2⟩ := Prod.mk.injEq .. ▸ Option.some.inj hco
  simp [← h1, ← h2]

theorem claim6_witness :
    0 < 2
    ∧ (harnessMain (fun x : Int => x.natAbs) 2 5 = some (0, true)
      ∧ (∀ code ok, harnessMain (fun x : Int => x.natAbs) 2 5 = some (code, ok) →
          (code = 0 ↔ ok = true))) :=
  ⟨by decide, claim6_harness_exit_code (fun x : Int => x.natAbs) 2 5 (by decide)⟩

/-- C7: when the refinable variant's resize attempt runs — single-threaded
the try-lock is won and the loaded snapshot is the expected one, so only the
re-checked load factor gates the rebuild — it builds a state whose capacity
is exactly 4 times the old one, with exactly one lock shard per bucket,
rehashes every stored element into the bucket indexed by its hash modulo the
new capacity, and publishes it; and every published snapshot of a reachable
state has shard count equal to bucket count. -/
theorem claim7_refinable_resize (hash : α → Nat) {s : HashSetRefinable α}
    (hI : RefInv hash s) (hlf : s.size_ > 4 * s.state_.buckets.length)
    (cap : Nat) (ops : List (Op α)) (hpos : 0 < cap) :
    (HashSetRefinable.MaybeResize hash s).state_.buckets.length
      = s.state_.buckets.length * 4
    ∧ (HashSetRefinable.MaybeResize hash s).state_.locks
      = (HashSetRefinable.MaybeResize hash s).state_.buckets.length
    ∧ (∀ i, bucketAt (HashSetRefinable.MaybeResize hash s).state_.buckets i
        = s.state_.buckets.flatten.filter
            (fun e => hash e % (s.state_.buckets.length * 4) == i))
    ∧ (∀ x, x ∈ refAbs (HashSetRefinable.MaybeResize hash s) ↔ x ∈ refAbs s)
    ∧ (refRun hash (HashSetRefinable.init cap) ops).2.state_.locks
      = (refRun hash (HashSetRefinable.init cap) ops).2.state_.buckets.length := by
  have hnle : ¬ (s.size_ ≤ HashSetRefinable.kLoadFactorThreshold
      * s.state_.buckets.length) := by
    rw [HashSetRefinable.kLoadFactorThreshold]
    omega
  have heq : HashSetRefinable.MaybeResize hash s =
      ⟨⟨rehash hash s.state_.buckets.flatten (s.state_.buckets.length * 4),
        s.state_.buckets.length * 4⟩, s.size_⟩ := by
    rw [HashSetRefinable.MaybeResize, if_neg hnle, if_neg hnle]
  have hpos4 : 0 < s.state_.buckets.length * 4 := by
    have := hI.tbl.cap_pos
    omega
  refine ⟨?_, ?_, ?_, ?_, ((refRun_spec ops _ (refInv_init hash hpos)).2.1).locks_eq⟩
  · rw [heq]
    exact length_rehash hash _ _
  · rw [heq]
    show s.state_.buckets.length * 4 = (rehash hash _ _).length
    rw [length_rehash]
  · intro i
    rw [heq]
    exact bucketAt_rehash hash _ hpos4 i
  · intro x
    rw [heq]
    show x ∈ (rehash hash _ _).flatten.toFinset ↔ x ∈ refAbs s
    rw [List.mem_toFinset, mem_rehash_flatten hash hI.tbl.flatten_nodup hpos4]
    exact (List.mem_toFinset).symm

theorem claim7_witness :
    RefInv id (⟨⟨[[0, 1, 2, 3, 4]], 1⟩, 5⟩ : HashSetRefinable Nat)
    ∧ (⟨⟨[[0, 1, 2, 3, 4]], 1⟩, 5⟩ : HashSetRefinable Nat).size_
        > 4 * (⟨⟨[[0, 1, 2, 3, 4]], 1⟩, 5⟩ : HashSetRefinable Nat).state_.buckets.length
    ∧ 0 < 1
    ∧ ((HashSetRefinable.MaybeResize id
          (⟨⟨[[0, 1, 2, 3, 4]], 1⟩, 5⟩ : HashSetRefinable Nat)).state_.buckets.length
        = (⟨⟨[[0, 1, 2, 3, 4]], 1⟩, 5⟩ :
            HashSetRefinable Nat).state_.buckets.length * 4
      ∧ (HashSetRefinable.MaybeResize id
          (⟨⟨[[0, 1, 2, 3, 4]], 1⟩, 5⟩ : HashSetRefinable Nat)).state_.locks
        = (HashSetRefinable.MaybeResize id
          (⟨⟨[[0, 1, 2, 3, 4]], 1⟩, 5⟩ : HashSetRefinable Nat)).state_.buckets.length
      ∧ (∀ i, bucketAt (HashSetRefinable.MaybeResize id
            (⟨⟨[[0, 1, 2, 3, 4]], 1⟩, 5⟩ : HashSetRefinable Nat)).state_.buckets i
          = (⟨⟨[[0, 1, 2, 3, 4]], 1⟩, 5⟩ :
              HashSetRefinable Nat).state_.buckets.flatten.filter
              (fun e => id e % ((⟨⟨[[0, 1, 2, 3, 4]], 1⟩, 5⟩ :
                HashSetRefinable Nat).state_.buckets.length * 4) == i))
      ∧ (∀ x, x ∈ refAbs (HashSetRefinable.MaybeResize id
            (⟨⟨[[0, 1, 2, 3, 4]], 1⟩, 5⟩ : HashSetRefinable Nat))
          ↔ x ∈ refAbs (⟨⟨[[0, 1, 2, 3, 4]], 1⟩, 5⟩ : HashSetRefinable Nat))
      ∧ (refRun id (HashSetRefinable.init 1) [Op.add 9]).2.state_.locks
        = (refRun id (HashSetRefinable.init 1) [Op.add 9]).2.state_.buckets.length) := by
  have htbl : TableInv id ([[0, 1, 2, 3, 4]] : List (List Nat)) := by
    refine ⟨by decide, ?_, ?_⟩
    · intro i
      cases i with
      | zero => decide
      | succ j =>
        rw [bucketAt_cons_succ, bucketAt_nil]
        exact List.nodup_nil
    · intro i e he
      cases i with
      | zero => simp [Nat.mod_one]
      | succ j =>
        rw [bucketAt_cons_succ, bucketAt_nil] at he
        cases he
  have hr : RefInv id (⟨⟨[[0, 1, 2, 3, 4]], 1⟩, 5⟩ : HashSetRefinable Nat) :=
    ⟨htbl, by decide, by decide⟩
  exact ⟨hr, by decide, by decide,
    claim7_refinable_resize id hr (by decide) 1 [Op.add 9] (by decide)⟩

/-- C8: in the striped variant the shard count is fixed at construction,
equal to the initial capacity, and is never changed by any operation; the
shard selection is the raw hash modulo the fixed shard count, independent of
the current table contents and size; the under-lock resize doubles the
capacity while leaving the lock count untouched; and whenever the table has
grown past the shard count, distinct buckets share a shard. -/
theorem claim8_striped_shards_fixed (hash : α → Nat) (cap : Nat) (ops : List (Op α))
    (hpos : 0 < cap) :
    (HashSetStriped.init (α := α) cap).locks_ = cap
    ∧ (∀ u : HashSetStriped α, ∀ op : Op α, (stripedStep hash u op).2.locks_ = u.locks_)
    ∧ (stripedRun hash (HashSetStriped.init cap) ops).2.locks_ = cap
    ∧ 0 < (stripedRun hash (HashSetStriped.init cap) ops).2.locks_
    ∧ (∀ (t1 t2 : List (List α)) (lk sz1 sz2 : Nat) (e : α),
        HashSetStriped.shardIndex hash ⟨t1, lk, sz1⟩ e
          = HashSetStriped.shardIndex hash ⟨t2, lk, sz2⟩ e)
    ∧ (∀ u : HashSetStriped α, HashSetStriped.loadFactorExceeded u = true →
        (HashSetStriped.Resize hash u).table_.length = u.table_.length * 2
        ∧ (HashSetStriped.Resize hash u).locks_ = u.locks_)
    ∧ (∀ u : HashSetStriped α, 0 < u.locks_ → u.locks_ < u.table_.length →
        ∃ h1 h2 : Nat, h1 % u.table_.length ≠ h2 % u.table_.length
          ∧ h1 % u.locks_ = h2 % u.locks_) := by
  have hrun : (stripedRun hash (HashSetStriped.init (α := α) cap) ops).2.locks_ = cap :=
    (stripedRun_locks hash ops _).trans rfl
  refine ⟨rfl, fun u op => stripedStep_locks hash u op, hrun, by omega, fun _ _ _ _ _ _ => rfl,
    fun u hlf => ?_, fun u hl0 hlt => ?_⟩
  · have heq : HashSetStriped.Resize hash u =
        ⟨rehash hash u.table_.flatten (u.table_.length * 2), u.locks_, u.size_⟩ := by
      rw [HashSetStriped.Resize, if_pos hlf]
    rw [heq]
    exact ⟨length_rehash hash _ _, rfl⟩
  · refine ⟨0, u.locks_, ?_, ?_⟩
    · rw [Nat.zero_mod, Nat.mod_eq_of_lt hlt]
      omega
    · rw [Nat.zero_mod, Nat.mod_self]

theorem claim8_witness :
    0 < 3
    ∧ ((HashSetStriped.init (α := Nat) 3).locks_ = 3
      ∧ (∀ u : HashSetStriped Nat, ∀ op : Op Nat,
          (stripedStep id u op).2.locks_ = u.locks_)
      ∧ (stripedRun id (HashSetStriped.init 3)
          [Op.add 1, Op.add 2, Op.add 3, Op.add 4, Op.add 5, Op.add 6, Op.add 7,
            Op.add 8, Op.add 9, Op.add 10, Op.add 11, Op.add 12, Op.add 13]).2.locks_ = 3
      ∧ 0 < (stripedRun id (HashSetStriped.init 3)
          [Op.add 1, Op.add 2, Op.add 3, Op.add 4, Op.add 5, Op.add 6, Op.add 7,
            Op.add 8, Op.add 9, Op.add 10, Op.add 11, Op.add 12, Op.add 13]).2.locks_
      ∧ (∀ (t1 t2 : List (List Nat)) (lk sz1 sz2 : Nat) (e : Nat),
          HashSetStriped.shardIndex id ⟨t1, lk, sz1⟩ e
            = HashSetStriped.shardIndex id ⟨t2, lk, sz2⟩ e)
      ∧ (∀ u : HashSetStriped Nat, HashSetStriped.loadFactorExceeded u = true →
          (HashSetStriped.Resize id u).table_.length = u.table_.length * 2
          ∧ (HashSetStriped.Resize id u).locks_ = u.locks_)
      ∧ (∀ u : HashSetStriped Nat, 0 < u.locks_ → u.locks_ < u.table_.length →
          ∃ h1 h2 : Nat, h1 % u.table_.length ≠ h2 % u.table_.length
            ∧ h1 % u.locks_ = h2 % u.locks_)) :=
  ⟨by decide, claim8_striped_shards_fixed id 3
    [Op.add 1, Op.add 2, Op.add 3, Op.add 4, Op.add 5, Op.add 6, Op.add 7,
      Op.add 8, Op.add 9, Op.add 10, Op.add 11, Op.add 12, Op.add 13] (by decide)⟩

/-- C10: in every variant run single-threaded from a positive initial
capacity, after construction and after every completed operation sequence
the element count is at most 4 times the current capacity: the resize
performed inside `Add` restores the load factor to at most the threshold
before `Add` returns, and no other operation can raise it. -/
theorem claim10_load_factor_bound (hash : α → Nat) (cap : Nat) (ops : List (Op α))
    (hpos : 0 < cap) :
    (seqRun hash (HashSetSequential.init cap) ops).2.size_
      ≤ 4 * (seqRun hash (HashSetSequential.init cap) ops).2.table_.length
    ∧ (stripedRun hash (HashSetStriped.init cap) ops).2.size_
      ≤ 4 * (stripedRun hash (HashSetStriped.init cap) ops).2.table_.length
    ∧ (refRun hash (HashSetRefinable.init cap) ops).2.size_
      ≤ 4 * (refRun hash (HashSetRefinable.init cap) ops).2.state_.buckets.length := by
  refine ⟨seqRun_load ops _ (seqInv_init hash hpos) ?_,
    stripedRun_load ops _ (stripedInv_init hash hpos) ?_,
    refRun_load ops _ (refInv_init hash hpos) ?_⟩
  · simp [HashSetSequential.init]
  · simp [HashSetStriped.init]
  · simp [HashSetRefinable.init]

theorem claim10_witness :
    0 < 1
    ∧ ((seqRun id (HashSetSequential.init (α := Nat) 1)
          [Op.add 1, Op.add 2, Op.add 3, Op.add 4, Op.add 5]).2.size_
        ≤ 4 * (seqRun id (HashSetSequential.init (α := Nat) 1)
          [Op.add 1, Op.add 2, Op.add 3, Op.add 4, Op.add 5]).2.table_.length
      ∧ (stripedRun id (HashSetStriped.init (α := Nat) 1)
          [Op.add 1, Op.add 2, Op.add 3, Op.add 4, Op.add 5]).2.size_
        ≤ 4 * (stripedRun id (HashSetStriped.init (α := Nat) 1)
          [Op.add 1, Op.add 2, Op.add 3, Op.add 4, Op.add 5]).2.table_.length
      ∧ (refRun id (HashSetRefinable.init (α := Nat) 1)
          [Op.add 1, Op.add 2, Op.add 3, Op.add 4, Op.add 5]).2.size_
        ≤ 4 * (refRun id (HashSetRefinable.init (α := Nat) 1)
          [Op.add 1, Op.add 2, Op.add 3, Op.add 4, Op.add 5]).2.state_.buckets.length) :=
  ⟨by decide, claim10_load_factor_bound id 1
    [Op.add 1, Op.add 2, Op.add 3, Op.add 4, Op.add 5] (by decide)⟩

end ConcurrentHashSet
